import Mathlib

/-!
Verification of the smart-install pipeline and marketplace aggregator of the
claudeCodeAssist VS Code extension.  The TypeScript sources are shallowly
embedded: strings are lists of characters, the filesystem is an association
list from paths (component lists) to artifacts, network retrieval outcomes are
explicit `Except` parameters, and every JavaScript regular-expression match of
`SmartInstaller.parseUrl` is implemented as a deterministic matcher that is
faithful to the corresponding anchored regex (greedy character-class runs
followed by literal separators admit no backtracking alternatives).
-/

set_option maxHeartbeats 1600000

abbrev Str := List Char

/-- Characters of the regex class [a-zA-Z0-9_-] (shorthand owner segment,
and the character class kept by sanitizeName). -/
def class1Chars : Str :=
  "abcdefghijklmnopqrstuvwxyzABCDEFGHIJKLMNOPQRSTUVWXYZ0123456789_-".data

/-- Characters of the regex class [a-zA-Z0-9_.-] (shorthand repo segment). -/
def class2Chars : Str :=
  "abcdefghijklmnopqrstuvwxyzABCDEFGHIJKLMNOPQRSTUVWXYZ0123456789_.-".data

/-- Characters of [a-z0-9_-]: the lowercase sanitized-name alphabet. -/
def lowerGoodChars : Str :=
  "abcdefghijklmnopqrstuvwxyz0123456789_-".data

/-- Characters of [A-Za-z0-9_]: class1 without the dash. -/
def wordChars : Str :=
  "abcdefghijklmnopqrstuvwxyzABCDEFGHIJKLMNOPQRSTUVWXYZ0123456789_".data

/-- Hexadecimal digits, both cases (gist id class [a-f0-9] under the /i flag). -/
def hexChars : Str := "0123456789abcdefABCDEF".data

def isC1 (c : Char) : Bool := class1Chars.contains c

def isC2 (c : Char) : Bool := class2Chars.contains c

def isLG (c : Char) : Bool := lowerGoodChars.contains c

def isWordC (c : Char) : Bool := wordChars.contains c

def isHexC (c : Char) : Bool := hexChars.contains c

/-- Whitespace characters removed by String.prototype.trim (ASCII part). -/
def isWs (c : Char) : Bool :=
  c = ' ' || c = '\t' || c = '\n' || c = '\r' || c = '\x0b' || c = '\x0c'

/-- Uppercase-to-lowercase table for ASCII letters. -/
def lowerPairs : List (Char × Char) :=
  [('A', 'a'), ('B', 'b'), ('C', 'c'), ('D', 'd'), ('E', 'e'), ('F', 'f'),
   ('G', 'g'), ('H', 'h'), ('I', 'i'), ('J', 'j'), ('K', 'k'), ('L', 'l'),
   ('M', 'm'), ('N', 'n'), ('O', 'o'), ('P', 'p'), ('Q', 'q'), ('R', 'r'),
   ('S', 's'), ('T', 't'), ('U', 'u'), ('V', 'v'), ('W', 'w'), ('X', 'x'),
   ('Y', 'y'), ('Z', 'z')]

/-- ASCII lowercasing; models JavaScript toLowerCase restricted to the ASCII
characters that actually occur in the embedded string operations. -/
def asciiLower (c : Char) : Char :=
  (((lowerPairs.find? (fun p => p.1 = c)).map (fun p => p.2)).getD c)

def lowerStr (s : Str) : Str := s.map asciiLower

/-- Drop matching elements from the tail of a list. -/
def dropTrailWhile (p : Char → Bool) (l : Str) : Str :=
  (l.reverse.dropWhile p).reverse

/-- Model of String.prototype.trim. -/
def trimL (l : Str) : Str := dropTrailWhile isWs (l.dropWhile isWs)

-- Node path helpers (posix), used by SmartInstaller via path.basename,
-- path.dirname and path.extname
/-- Node path.basename (posix): strip trailing slashes, then keep what
follows the last slash.  basename "" = "", basename of all slashes = "/". -/
def basenameL (s : Str) : Str :=
  if s = [] then []
  else
    let s1 := dropTrailWhile (fun c => c = '/') s
    if s1 = [] then ['/']
    else (s1.reverse.takeWhile (fun c => c ≠ '/')).reverse

/-- Node path.dirname (posix). -/
def dirnameL (s : Str) : Str :=
  if s = [] then ['.']
  else
    let hasRoot := s.head? = some '/'
    let s1 := dropTrailWhile (fun c => c = '/') s
    let s2 := dropTrailWhile (fun c => c ≠ '/') s1
    let s3 := dropTrailWhile (fun c => c = '/') s2
    if s3 = [] then (if hasRoot then ['/'] else ['.']) else s3

/-- Extension of a single path component: from the last dot, provided the dot
is not the leading character (Node path.extname on a basename). -/
def extOfBase (b : Str) : Str :=
  let r := b.reverse
  let ext := r.takeWhile (fun c => c ≠ '.')
  let rest := r.dropWhile (fun c => c ≠ '.')
  match rest with
  | [] => []
  | _ :: restTail => if restTail = [] then [] else ('.' :: ext.reverse)

/-- Node path.extname (posix): extension of the final component. -/
def extnameL (s : Str) : Str :=
  extOfBase ((s.reverse.takeWhile (fun c => c ≠ '/')).reverse)

/-- path.basename(p, path.extname(p)): final component with its extension
stripped (SmartInstaller uses this to derive file-based skill names). -/
def fileStem (s : Str) : Str :=
  let b := basenameL s
  let e := extnameL s
  if e = [] then b else b.take (b.length - e.length)

-- the SmartInstaller data model
/-- SmartInstaller ParsedUrl.type. -/
inductive UrlType where
  | file | folder | repo | gist | raw
deriving DecidableEq, Repr

/-- The four artifact types of the installer. -/
inductive SkillType where
  | skill | agent | command | plugin
deriving DecidableEq, Repr

/-- Embedded ParsedUrl record of SmartInstaller. -/
structure ParsedUrl where
  type : UrlType
  repoUrl : Option String := none
  branch : Option String := none
  subPath : Option String := none
  rawUrl : Option String := none
  gistId : Option String := none
  owner : Option String := none
  repo : Option String := none
  skillName : String
  skillType : SkillType
deriving DecidableEq, Repr

/-- Substring test: JavaScript String.prototype.includes. -/
def containsSub (s pat : Str) : Bool :=
  s.tails.any (fun t => pat.isPrefixOf t)

/-- SmartInstaller.sanitizeName steps: replace each character outside
[a-zA-Z0-9_-] with a dash. -/
def replaceBad (l : Str) : Str :=
  l.map (fun c => if isC1 c then c else '-')

/-- SmartInstaller.sanitizeName steps: collapse runs of dashes (regex -+ → -).
The Boolean argument records whether the previous kept character was a dash. -/
def collapseDashes : Bool → Str → Str
  | _, [] => []
  | prevDash, c :: rest =>
    if c = '-' then
      (if prevDash then collapseDashes true rest
       else '-' :: collapseDashes true rest)
    else c :: collapseDashes false rest

/-- SmartInstaller.sanitizeName steps: regex ^-|-$ removes one leading and one
trailing dash. -/
def dropLeadDash (l : Str) : Str :=
  match l with
  | c :: r => if c = '-' then r else c :: r
  | [] => []

def dropTrailDash (l : Str) : Str := (dropLeadDash l.reverse).reverse

/-- SmartInstaller.sanitizeName: replace characters outside [a-zA-Z0-9_-] with
a dash, collapse dash runs, trim one dash at each end, lowercase. -/
def sanitizeNameL (l : Str) : Str :=
  lowerStr (dropTrailDash (dropLeadDash (collapseDashes false (replaceBad l))))

/-- SmartInstaller.detectSkillType: keyword hint from the URL path, priority
plugin, agent/subagent, command, default skill. -/
def detectSkillTypeL (p : Str) : SkillType :=
  let lower := lowerStr p
  if containsSub lower "plugin".data then .plugin
  else if containsSub lower "agent".data || containsSub lower "subagent".data then .agent
  else if containsSub lower "command".data then .command
  else .skill

-- regex matchers of SmartInstaller.parseUrl
/-- Strip an exact (case-sensitive) literal. -/
def stripPre : Str → Str → Option Str
  | [], s => some s
  | _, [] => none
  | p :: ps, c :: cs => if c = p then stripPre ps cs else none

/-- Strip a literal pattern (given lowercase) case-insensitively, modelling a
literal inside a regex with the i flag. -/
def stripCI : Str → Str → Option Str
  | [], s => some s
  | _, [] => none
  | p :: ps, c :: cs => if asciiLower c = p then stripCI ps cs else none

/-- The literal "://" after the scheme name. -/
def expectCSS : Str → Option Str
  | a :: b :: c :: r =>
    if asciiLower a = ':' ∧ asciiLower b = '/' ∧ asciiLower c = '/' then some r
    else none
  | _ => none

/-- The regex prefix ^https?:\/\/ under the i flag. -/
def matchScheme : Str → Option Str
  | c1 :: c2 :: c3 :: c4 :: rest =>
    if asciiLower c1 = 'h' ∧ asciiLower c2 = 't' ∧ asciiLower c3 = 't' ∧
        asciiLower c4 = 'p' then
      match rest with
      | c5 :: rest2 =>
        if asciiLower c5 = 's' then expectCSS rest2 else expectCSS rest
      | [] => none
    else none
  | _ => none

/-- One URL segment ([^\/]+) followed by a consumed slash. -/
def seg (l : Str) : Option (Str × Str) :=
  let s := l.takeWhile (fun c => c ≠ '/')
  if s = [] then none
  else
    match l.dropWhile (fun c => c ≠ '/') with
    | '/' :: rest => some (s, rest)
    | _ => none

/-- Scheme plus a case-insensitive host literal (including its slash). -/
def matchSchemeHost (host : Str) (l : Str) : Option Str :=
  (matchScheme l).bind (stripCI host)

/-- Regex ^https?:\/\/gist\.github\.com\/([^\/]+)\/([a-f0-9]+)/i, unanchored at
the end: owner segment then a maximal nonempty hex run; the tail is ignored. -/
def matchGistUrl (l : Str) : Option (Str × Str) :=
  match matchSchemeHost "gist.github.com/".data l with
  | none => none
  | some r1 =>
    match seg r1 with
    | none => none
    | some (ow, r2) =>
      let hex := r2.takeWhile isHexC
      if hex = [] then none else some (ow, hex)

/-- Regex ^https?:\/\/raw\.githubusercontent\.com\/([^\/]+)\/([^\/]+)\/([^\/]+)\/(.+)$/i. -/
def matchRaw (l : Str) : Option (Str × Str × Str × Str) :=
  match matchSchemeHost "raw.githubusercontent.com/".data l with
  | none => none
  | some r1 =>
    match seg r1 with
    | none => none
    | some (ow, r2) =>
      match seg r2 with
      | none => none
      | some (rp, r3) =>
        match seg r3 with
        | none => none
        | some (br, r4) => if r4 = [] then none else some (ow, rp, br, r4)

/-- Regex ^https?:\/\/github\.com\/([^\/]+)\/([^\/]+)\/blob\/([^\/]+)\/(.+)$/i. -/
def matchBlob (l : Str) : Option (Str × Str × Str × Str) :=
  match matchSchemeHost "github.com/".data l with
  | none => none
  | some r1 =>
    match seg r1 with
    | none => none
    | some (ow, r2) =>
      match seg r2 with
      | none => none
      | some (rp, r3) =>
        match stripCI "blob/".data r3 with
        | none => none
        | some r4 =>
          match seg r4 with
          | none => none
          | some (br, r5) => if r5 = [] then none else some (ow, rp, br, r5)

/-- Regex ^https?:\/\/github\.com\/([^\/]+)\/([^\/]+)\/tree\/([^\/]+)(?:\/(.+))?$/i. -/
def matchTree (l : Str) : Option (Str × Str × Str × Str) :=
  match matchSchemeHost "github.com/".data l with
  | none => none
  | some r1 =>
    match seg r1 with
    | none => none
    | some (ow, r2) =>
      match seg r2 with
      | none => none
      | some (rp, r3) =>
        match stripCI "tree/".data r3 with
        | none => none
        | some r4 =>
          let br := r4.takeWhile (fun c => c ≠ '/')
          if br = [] then none
          else
            match r4.dropWhile (fun c => c ≠ '/') with
            | [] => some (ow, rp, br, [])
            | '/' :: r5 => if r5 = [] then none else some (ow, rp, br, r5)
            | _ => none

/-- Regex ^https?:\/\/github\.com\/([^\/]+)\/([^\/]+)\/?$/i. -/
def matchRepoRoot (l : Str) : Option (Str × Str) :=
  match matchSchemeHost "github.com/".data l with
  | none => none
  | some r1 =>
    match seg r1 with
    | none => none
    | some (ow, r2) =>
      let rp := r2.takeWhile (fun c => c ≠ '/')
      if rp = [] then none
      else
        match r2.dropWhile (fun c => c ≠ '/') with
        | [] => some (ow, rp)
        | ['/'] => some (ow, rp)
        | _ => none

/-- Regex ^([a-zA-Z0-9_-]+)\/([a-zA-Z0-9_.-]+)(?:\/(.+))?$ (case-sensitive). -/
def matchShorthand (l : Str) : Option (Str × Str × Option Str) :=
  let ow := l.takeWhile isC1
  if ow = [] then none
  else
    match l.dropWhile isC1 with
    | '/' :: r2 =>
      let rp := r2.takeWhile isC2
      if rp = [] then none
      else
        match r2.dropWhile isC2 with
        | [] => some (ow, rp, none)
        | '/' :: r4 => if r4 = [] then none else some (ow, rp, some r4)
        | _ => none
    | _ => none

/-- Repository clone URL constructed by parseUrl. -/
def ghRepoUrl (ow rp : Str) : String :=
  ("https://github.com/".data ++ ow ++ '/' :: rp ++ ".git".data).asString

/-- Raw content URL derived by parseUrl for blob URLs. -/
def rawUrlOf (ow rp br fp : Str) : String :=
  ("https://raw.githubusercontent.com/".data ++ ow ++ '/' :: rp ++ '/' :: br ++
    '/' :: fp).asString

/-- SmartInstaller.parseUrl on the trimmed character list, following the
source branch order: gist shorthand, gist URL, raw URL, blob URL, tree URL,
bare repo URL, owner/repo shorthand, else null. -/
def parseUrlL (l : Str) : Option ParsedUrl :=
  match stripPre "gist:".data l with
  | some gid =>
    some { type := .gist, gistId := some gid.asString,
           skillName := ("gist-".data ++ gid.take 8).asString,
           skillType := .skill }
  | none =>
  match matchGistUrl l with
  | some (ow, gid) =>
    some { type := .gist, gistId := some gid.asString, owner := some ow.asString,
           skillName := ("gist-".data ++ gid.take 8).asString,
           skillType := .skill }
  | none =>
  match matchRaw l with
  | some (ow, rp, br, rest) =>
    some { type := .raw, rawUrl := some l.asString, owner := some ow.asString,
           repo := some rp.asString, branch := some br.asString,
           subPath := some rest.asString,
           skillName := (sanitizeNameL (fileStem rest)).asString,
           skillType := detectSkillTypeL rest }
  | none =>
  match matchBlob l with
  | some (ow, rp, br, fp) =>
    if "SKILL.md".data.isSuffixOf fp || "agent.md".data.isSuffixOf fp then
      let folderPath := dirnameL fp
      some { type := .folder, repoUrl := some (ghRepoUrl ow rp),
             branch := some br.asString, subPath := some folderPath.asString,
             owner := some ow.asString, repo := some rp.asString,
             skillName := (sanitizeNameL (basenameL folderPath)).asString,
             skillType := detectSkillTypeL fp }
    else
      some { type := .file, repoUrl := some (ghRepoUrl ow rp),
             branch := some br.asString, subPath := some fp.asString,
             owner := some ow.asString, repo := some rp.asString,
             rawUrl := some (rawUrlOf ow rp br fp),
             skillName := (sanitizeNameL (fileStem fp)).asString,
             skillType := detectSkillTypeL fp }
  | none =>
  match matchTree l with
  | some (ow, rp, br, sub) =>
    some { type := .folder, repoUrl := some (ghRepoUrl ow rp),
           branch := some br.asString, subPath := some sub.asString,
           owner := some ow.asString, repo := some rp.asString,
           skillName := (sanitizeNameL
             (if sub = [] then rp else basenameL sub)).asString,
           skillType := detectSkillTypeL sub }
  | none =>
  match matchRepoRoot l with
  | some (ow, rp) =>
    some { type := .repo, repoUrl := some (ghRepoUrl ow rp),
           owner := some ow.asString, repo := some rp.asString,
           skillName := (sanitizeNameL rp).asString, skillType := .skill }
  | none =>
  match matchShorthand l with
  | some (ow, rp, subOpt) =>
    match subOpt with
    | some sub =>
      some { type := .folder, repoUrl := some (ghRepoUrl ow rp),
             branch := some "main", subPath := some sub.asString,
             owner := some ow.asString, repo := some rp.asString,
             skillName := (sanitizeNameL (basenameL sub)).asString,
             skillType := detectSkillTypeL sub }
    | none =>
      some { type := .repo, repoUrl := some (ghRepoUrl ow rp),
             owner := some ow.asString, repo := some rp.asString,
             skillName := (sanitizeNameL rp).asString, skillType := .skill }
  | none => none

/-- SmartInstaller.parseUrl: trims the input, then tries the recognized URL
shapes in order. -/
def parseUrl (input : String) : Option ParsedUrl := parseUrlL (trimL input.data)

/-- The unanchored-at-the-end test /^[a-zA-Z0-9_-]+\/[a-zA-Z0-9_.-]+/ used by
isValidInput. -/
def shorthandTest (l : Str) : Bool :=
  if l.takeWhile isC1 = [] then false
  else
    match l.dropWhile isC1 with
    | '/' :: r2 => !(r2.takeWhile isC2).isEmpty
    | _ => false

/-- SmartInstaller.isValidInput: quick pre-check before install. -/
def isValidInput (input : String) : Bool :=
  let l := trimL input.data
  if "gist:".data.isPrefixOf l then true
  else if "http://".data.isPrefixOf l then true
  else if "https://".data.isPrefixOf l then true
  else shorthandTest l

-- the type reclassifier (SmartInstaller.hasContentType / detectTypeFromContent)
/-- One entry of a materialized directory (fs.Dirent): name and whether it is
a subdirectory. -/
structure Entry where
  name : String
  isDir : Bool
deriving DecidableEq, Repr

/-- The three content indicators probed by SmartInstaller.hasContentType. -/
inductive ContentKind where
  | skillK | agentK | commandK
deriving DecidableEq, Repr

/-- One iteration of the hasContentType loop: does this entry indicate the
given content kind? -/
def entryMatches (k : ContentKind) (e : Entry) : Bool :=
  let lower := lowerStr e.name.data
  match k with
  | .skillK =>
      (e.isDir && lower = "skills".data) ||
      (!e.isDir && (lower = "skill.md".data || containsSub lower "skill".data))
  | .agentK =>
      (e.isDir && (lower = "agents".data || lower = "subagent".data ||
        lower = "subagents".data)) ||
      (!e.isDir && (lower = "agent.md".data || containsSub lower "agent".data ||
        containsSub lower "subagent".data))
  | .commandK =>
      (e.isDir && lower = "commands".data) ||
      (!e.isDir && (lower = "command.md".data || containsSub lower "command".data))

/-- SmartInstaller.hasContentType over the entries of an existing directory. -/
def hasContentType (entries : List Entry) (k : ContentKind) : Bool :=
  entries.any (entryMatches k)

/-- The [hasSkills, hasCommands, hasAgents].filter(Boolean).length count. -/
def typeCount (entries : List Entry) : Nat :=
  [hasContentType entries .skillK, hasContentType entries .commandK,
   hasContentType entries .agentK].count true

/-- SmartInstaller.detectTypeFromContent, directory case: two or more
indicators give plugin; otherwise priority agent, command, skill; default
skill. -/
def detectTypeFromContentDir (entries : List Entry) : SkillType :=
  if 2 ≤ typeCount entries then .plugin
  else if hasContentType entries .agentK then .agent
  else if hasContentType entries .commandK then .command
  else if hasContentType entries .skillK then .skill
  else .skill

/-- SmartInstaller.detectTypeFromContent, single-file case: keyword scan of
the lowercased basename, priority agent/subagent, command, plugin. -/
def detectTypeFromContentFile (filename : String) : SkillType :=
  let lower := lowerStr filename.data
  if containsSub lower "agent".data || containsSub lower "subagent".data then .agent
  else if containsSub lower "command".data then .command
  else if containsSub lower "plugin".data then .plugin
  else .skill

-- the installer orchestration (SmartInstaller.install and its strategies)
/-- Installation scope. -/
inductive Scope where
  | user | project
deriving DecidableEq, Repr

def scopeName : Scope → String
  | .user => "user"
  | .project => "project"

/-- Root install directory per scope (default settings: ~/.claude and
./.claude resolved against the workspace). -/
def scopeRoot : Scope → String
  | .user => "~/.claude"
  | .project => "./.claude"

/-- getDestinationPath container mapping for the four artifact types. -/
def containerOf : SkillType → String
  | .skill => "skills"
  | .agent => "agents"
  | .command => "commands"
  | .plugin => "plugins"

/-- The literal union values of the TypeScript type, as interpolated into
error messages. -/
def typeName : SkillType → String
  | .skill => "skill"
  | .agent => "agent"
  | .command => "command"
  | .plugin => "plugin"

/-- Filesystem paths as component lists (root, container, leaf). -/
abbrev FPath := List String

/-- SmartInstaller.getDestinationPath: destRoot/container/name. -/
def destPathOf (scope : Scope) (t : SkillType) (name : String) : FPath :=
  [scopeRoot scope, containerOf t, name]

/-- A materialized artifact: a single file with its content, or a directory
described by its entries. -/
inductive Artifact where
  | file (content : String)
  | dir (entries : List Entry)
deriving DecidableEq, Repr

/-- The filesystem model: an association list from paths to artifacts. -/
abbrev Fs := List (FPath × Artifact)

def fsLookup (fs : Fs) (p : FPath) : Option Artifact :=
  (fs.find? (fun e => e.1 = p)).map (fun e => e.2)

def fsExists (fs : Fs) (p : FPath) : Bool :=
  (fsLookup fs p).isSome

/-- fs.writeFileSync / recursive copy: overwrites any previous node. -/
def fsWrite (fs : Fs) (p : FPath) (a : Artifact) : Fs :=
  (p, a) :: fs.filter (fun e => !(e.1 = p : Bool))

/-- fs.rmSync / fs.unlinkSync. -/
def fsRemove (fs : Fs) (p : FPath) : Fs :=
  fs.filter (fun e => !(e.1 = p : Bool))

/-- fs.renameSync. -/
def fsRename (fs : Fs) (src dst : FPath) : Fs :=
  match fsLookup fs src with
  | some a => fsWrite (fsRemove fs src) dst a
  | none => fs

/-- Apply a function to the final path component. -/
def mapLast (f : String → String) : FPath → FPath
  | [] => []
  | [x] => [f x]
  | x :: xs => x :: mapLast f xs

/-- installFile: append .md when the destination has no extension. -/
def withMdIfNoExt : FPath → FPath :=
  mapLast (fun n => if extOfBase n.data = [] then n ++ ".md" else n)

/-- InstallResult of SmartInstaller. -/
structure InstallResult where
  success : Bool
  destPath : Option FPath := none
  error : Option String := none
deriving DecidableEq, Repr

/-- The body-content guard at the end of SmartInstaller.fetchContent: a body
that (after trimming) starts with an HTML document marker is rejected. -/
def contentCheck (data : String) : Except String String :=
  if "<!DOCTYPE".data.isPrefixOf (trimL data.data) ||
      "<html".data.isPrefixOf (trimL data.data) then
    .error "Received HTML instead of raw content"
  else .ok data

/-- SmartInstaller.installFile given the settled outcome of fetchContent:
writes the body at the destination, appending .md when the destination has no
extension.  A rejected fetch propagates as an error. -/
def installFileModel (fetchRes : Except String String) (dest : FPath) (fs : Fs) :
    Except String (FPath × Fs) :=
  match fetchRes with
  | .error e => .error e
  | .ok content =>
    let finalPath := withMdIfNoExt dest
    .ok (finalPath, fsWrite fs finalPath (.file content))

/-- SmartInstaller.installFolder given the settled outcome of the clone and
subpath lookup: copies the located file or directory to the destination. -/
def installFolderModel (cloneRes : Except String Artifact) (dest : FPath)
    (fs : Fs) : Except String (FPath × Fs) :=
  match cloneRes with
  | .error e => .error e
  | .ok a => .ok (dest, fsWrite fs dest a)

/-- SmartInstaller.installGist given the settled gist fetch: a single file is
written at destination + extension (extension of the gist file name, default
.md); several files become a directory at the destination. -/
def installGistModel (gistRes : Except String (Artifact × String))
    (dest : FPath) (fs : Fs) : Except String (FPath × Fs) :=
  match gistRes with
  | .error e => .error e
  | .ok (.file c, ext) =>
    let fp := mapLast (fun n => n ++ ext) dest
    .ok (fp, fsWrite fs fp (.file c))
  | .ok (.dir es, _) => .ok (dest, fsWrite fs dest (.dir es))

/-- The settled outcomes of the retrieval strategies for one install call. -/
structure RetrievalEnv where
  fetchRes : Except String String := .error "HTTP 404"
  cloneRes : Except String Artifact := .error "clone failed"
  gistRes : Except String (Artifact × String) := .error "HTTP 404"

/-- Dispatch of SmartInstaller.install to the strategy of the descriptor
kind. -/
def runStrategy (p : ParsedUrl) (env : RetrievalEnv) (dest : FPath) (fs : Fs) :
    Except String (FPath × Fs) :=
  match p.type with
  | .file | .raw => installFileModel env.fetchRes dest fs
  | .folder | .repo => installFolderModel env.cloneRes dest fs
  | .gist => installGistModel env.gistRes dest fs

/-- detectTypeFromContent as called by install: directory artifacts are
classified from their entries, files from the lowercased basename of the
path that was written. -/
def detectTypeAt (installedPath : FPath) (node : Option Artifact) : SkillType :=
  match node with
  | some (.dir es) => detectTypeFromContentDir es
  | _ => detectTypeFromContentFile (installedPath.getLastD "")

/-- SmartInstaller.install: check the provisional destination, run the
retrieval strategy, reclassify from content, and relocate when the detected
type differs from the descriptor hint. -/
def installModel (p : ParsedUrl) (scope : Scope) (env : RetrievalEnv)
    (fs : Fs) : InstallResult × Fs :=
  let tempDest := destPathOf scope p.skillType p.skillName
  if fsExists fs tempDest then
    ({ success := false,
       error := some (p.skillName ++ " already exists in " ++ scopeName scope) },
     fs)
  else
    match runStrategy p env tempDest fs with
    | .error e => ({ success := false, error := some e }, fs)
    | .ok (installedPath, fs1) =>
      let actualType := detectTypeAt installedPath (fsLookup fs1 installedPath)
      if actualType ≠ p.skillType then
        let correctDest := destPathOf scope actualType p.skillName
        if fsExists fs1 correctDest then
          ({ success := false,
             error := some (p.skillName ++ " already exists in " ++
               scopeName scope ++ " as " ++ typeName actualType) },
           fsRemove fs1 installedPath)
        else
          ({ success := true, destPath := some correctDest },
           fsRename fs1 installedPath correctDest)
      else
        ({ success := true, destPath := some installedPath }, fs1)

-- the marketplace source aggregator (SourceAggregator.fetchAll)
/-- A marketplace artifact; url is the canonical deduplication key. -/
structure MSkill where
  url : String
  name : String
deriving DecidableEq, Repr

/-- The settled outcome of one provider task for an aggregation round: a
cache hit or a fresh fetchSkills call both settle fulfilled, a thrown fetch
settles rejected. -/
inductive FetchOutcome where
  | ok (skills : List MSkill)
  | err (msg : String)
deriving DecidableEq, Repr

/-- One registered provider together with the settled outcome of its task.
Promise.allSettled returns the outcomes in input order, so results are
processed in registration order. -/
structure Provider where
  id : String
  pname : String
  enabled : Bool
  outcome : FetchOutcome
deriving DecidableEq, Repr

structure SourceInfo where
  id : String
  name : String
  count : Nat
  enabled : Bool
deriving DecidableEq, Repr

structure SourceError where
  sourceId : String
  sourceName : String
  error : String
deriving DecidableEq, Repr

structure AggregatedResult where
  skills : List MSkill
  sources : List SourceInfo
  errors : List SourceError
deriving DecidableEq, Repr

/-- fetchAll source selection: an explicit sourceIds filter, else the enabled
providers. -/
def selectProviders (registered : List Provider) (sourceIds : Option (List String)) :
    List Provider :=
  match sourceIds with
  | some ids => registered.filter (fun p => ids.contains p.id)
  | none => registered.filter (fun p => p.enabled)

/-- The skills gathered from the fulfilled results, in registration order. -/
def gatherSkills (selected : List Provider) : List MSkill :=
  selected.flatMap (fun p => match p.outcome with | .ok s => s | .err _ => [])

/-- Per-source infos pushed for fulfilled results. -/
def fulfilledInfos (selected : List Provider) : List SourceInfo :=
  selected.filterMap (fun p =>
    match p.outcome with
    | .ok s => some ⟨p.id, p.pname, s.length, p.enabled⟩
    | .err _ => none)

/-- Error records pushed for rejected results (the source cannot be recovered
from the settled reason, hence the unknown placeholders). -/
def rejectedErrors (selected : List Provider) : List SourceError :=
  selected.filterMap (fun p =>
    match p.outcome with
    | .ok _ => none
    | .err e => some ⟨"unknown", "Unknown", e⟩)

/-- The loop adding a zero-count info for every registered source that has no
info entry yet. -/
def addMissingInfos (registered : List Provider) (infos : List SourceInfo) :
    List SourceInfo :=
  registered.foldl
    (fun acc p =>
      if acc.any (fun s => s.id = p.id) then acc
      else acc ++ [⟨p.id, p.pname, 0, p.enabled⟩])
    infos

/-- Deduplication by canonical URL, first occurrence wins; seen is the set of
URLs already kept. -/
def dedupGo (seen : List String) : List MSkill → List MSkill
  | [] => []
  | s :: rest =>
    if seen.contains s.url then dedupGo seen rest
    else s :: dedupGo (s.url :: seen) rest

def dedupByUrl (l : List MSkill) : List MSkill := dedupGo [] l

/-- SourceAggregator.fetchAll given the settled outcome of every provider
task. -/
def fetchAllModel (registered : List Provider) (sourceIds : Option (List String)) :
    AggregatedResult :=
  let selected := selectProviders registered sourceIds
  { skills := dedupByUrl (gatherSkills selected)
    sources := addMissingInfos registered (fulfilledInfos selected)
    errors := rejectedErrors selected }

-- theorems

-- basic facts about the character classes, all by finite computation
theorem isC1_lower_isC1 {c : Char} (h : isC1 c = true) :
    isC1 (asciiLower c) = true := by
  have hall : class1Chars.all (fun c => isC1 (asciiLower c)) = true := by decide
  have hc : c ∈ class1Chars := by
    simpa [isC1, List.contains, List.elem_iff] using h
  exact List.all_eq_true.mp hall c hc

theorem isC1_lower_isLG {c : Char} (h : isC1 c = true) :
    isLG (asciiLower c) = true := by
  have hall : class1Chars.all (fun c => isLG (asciiLower c)) = true := by decide
  have hc : c ∈ class1Chars := by
    simpa [isC1, List.contains, List.elem_iff] using h
  exact List.all_eq_true.mp hall c hc

theorem isC1_char_facts {c : Char} (h : isC1 c = true) :
    c ≠ ':' ∧ c ≠ '/' ∧ asciiLower c ≠ ':' ∧ asciiLower c ≠ '/' ∧ isWs c = false := by
  have hall : class1Chars.all
      (fun c => decide (c ≠ ':') && decide (c ≠ '/') &&
        decide (asciiLower c ≠ ':') && decide (asciiLower c ≠ '/') &&
        !(isWs c)) = true := by decide
  have hc : c ∈ class1Chars := by
    simpa [isC1, List.contains, List.elem_iff] using h
  have := List.all_eq_true.mp hall c hc
  simp only [Bool.and_eq_true, decide_eq_true_eq, Bool.not_eq_true'] at this
  exact ⟨this.1.1.1.1, this.1.1.1.2, this.1.1.2, this.1.2, this.2⟩

theorem isC2_char_facts {c : Char} (h : isC2 c = true) :
    c ≠ ':' ∧ c ≠ '/' ∧ isWs c = false := by
  have hall : class2Chars.all
      (fun c => decide (c ≠ ':') && decide (c ≠ '/') && !(isWs c)) = true := by
    decide
  have hc : c ∈ class2Chars := by
    simpa [isC2, List.contains, List.elem_iff] using h
  have := List.all_eq_true.mp hall c hc
  simp only [Bool.and_eq_true, decide_eq_true_eq, Bool.not_eq_true'] at this
  exact ⟨this.1.1, this.1.2, this.2⟩

-- takeWhile / dropWhile across an append whose first part satisfies p
theorem takeWhile_app {p : Char → Bool} {l1 : Str} (c : Char) (l2 : Str)
    (h1 : ∀ x ∈ l1, p x = true) (hc : p c = false) :
    (l1 ++ c :: l2).takeWhile p = l1 := by
  induction l1 with
  | nil => simp [List.takeWhile, hc]
  | cons a t ih =>
      have ha : p a = true := h1 a (by simp)
      simp [List.takeWhile, ha, ih (fun x hx => h1 x (by simp [hx]))]

theorem dropWhile_app {p : Char → Bool} {l1 : Str} (c : Char) (l2 : Str)
    (h1 : ∀ x ∈ l1, p x = true) (hc : p c = false) :
    (l1 ++ c :: l2).dropWhile p = c :: l2 := by
  induction l1 with
  | nil => simp [List.dropWhile, hc]
  | cons a t ih =>
      have ha : p a = true := h1 a (by simp)
      simp [List.dropWhile, ha, ih (fun x hx => h1 x (by simp [hx]))]

theorem takeWhile_all {p : Char → Bool} {l : Str} (h : ∀ x ∈ l, p x = true) :
    l.takeWhile p = l := by
  induction l with
  | nil => rfl
  | cons a t ih =>
      have ha : p a = true := h a (by simp)
      simp [List.takeWhile, ha, ih (fun x hx => h x (by simp [hx]))]

theorem dropWhile_all {p : Char → Bool} {l : Str} (h : ∀ x ∈ l, p x = true) :
    l.dropWhile p = [] := by
  induction l with
  | nil => rfl
  | cons a t ih =>
      have ha : p a = true := h a (by simp)
      simp [List.dropWhile, ha, ih (fun x hx => h x (by simp [hx]))]

theorem dropTrailWhile_app {p : Char → Bool} (l1 l2 : Str)
    (h : dropTrailWhile p l2 ≠ []) :
    dropTrailWhile p (l1 ++ l2) = l1 ++ dropTrailWhile p l2 := by
  unfold dropTrailWhile at *
  rw [List.reverse_append]
  rw [List.dropWhile_append]
  split
  · next hemp =>
      exfalso
      apply h
      simp [List.dropWhile_eq_nil_iff] at hemp ⊢
      intro x hx
      exact hemp x (by simpa using hx)
  · simp

theorem dropTrailWhile_last {p : Char → Bool} {l : Str} {c : Char}
    (hl : l.getLast? = some c) (hc : p c = false) :
    dropTrailWhile p l = l := by
  unfold dropTrailWhile
  have : l.reverse.head? = some c := by
    simpa [List.head?_reverse] using hl
  cases hrev : l.reverse with
  | nil => simp [hrev] at this
  | cons a t =>
      rw [hrev] at this
      simp at this
      subst this
      simp [List.dropWhile, hc, ← hrev]

-- C1: the directory reclassification decision table
/-- C1: for every materialized directory, detectTypeFromContent with
isDirectory = true returns plugin when at least two of the three content
indicators (skill, command, agent) are present, returns the single indicated
type when exactly one is present, and returns skill when none is present; in
particular a directory holding both a commands/ and an agents/ subdirectory
classifies as plugin, and one holding only commands/ classifies as command. -/
theorem c1_directory_reclassification (entries : List Entry) :
    (2 ≤ typeCount entries → detectTypeFromContentDir entries = .plugin) ∧
    (hasContentType entries .agentK = true →
      hasContentType entries .commandK = false →
      hasContentType entries .skillK = false →
      detectTypeFromContentDir entries = .agent) ∧
    (hasContentType entries .commandK = true →
      hasContentType entries .agentK = false →
      hasContentType entries .skillK = false →
      detectTypeFromContentDir entries = .command) ∧
    (hasContentType entries .skillK = true →
      hasContentType entries .agentK = false →
      hasContentType entries .commandK = false →
      detectTypeFromContentDir entries = .skill) ∧
    (hasContentType entries .skillK = false →
      hasContentType entries .agentK = false →
      hasContentType entries .commandK = false →
      detectTypeFromContentDir entries = .skill) ∧
    detectTypeFromContentDir [⟨"commands", true⟩, ⟨"agents", true⟩] = .plugin ∧
    detectTypeFromContentDir [⟨"commands", true⟩] = .command := by
  refine ⟨?_, ?_, ?_, ?_, ?_, by decide, by decide⟩ <;>
    cases hs : hasContentType entries .skillK <;>
    cases hc : hasContentType entries .commandK <;>
    cases ha : hasContentType entries .agentK <;>
    simp_all [detectTypeFromContentDir, typeCount]

/-- Closed instances of C1, obtained from the quantified statement. -/
theorem c1_directory_reclassification_witness :
    detectTypeFromContentDir [⟨"commands", true⟩, ⟨"agents", true⟩] = .plugin ∧
    detectTypeFromContentDir [⟨"commands", true⟩] = .command :=
  ⟨(c1_directory_reclassification [⟨"commands", true⟩, ⟨"agents", true⟩]).1
      (by decide),
   (c1_directory_reclassification [⟨"commands", true⟩]).2.2.1 (by decide)
      (by decide) (by decide)⟩

-- A shorthand-shaped input (class1 owner segment before the first slash)
-- cannot match an http(s) scheme or the gist: shorthand.
theorem expectCSS_class1 (l tail : Str) (hcl : ∀ c ∈ l, isC1 c = true) :
    expectCSS (l ++ '/' :: tail) = none := by
  rcases l with _ | ⟨x, _ | ⟨y, l3⟩⟩
  · rcases tail with _ | ⟨t1, _ | ⟨t2, tr⟩⟩
    · rfl
    · rfl
    · simp +decide [expectCSS]
  · have hx : asciiLower x ≠ ':' := (isC1_char_facts (hcl x (by simp))).2.2.1
    rcases tail with _ | ⟨t1, tr⟩
    · rfl
    · simp [expectCSS, hx]
  · have hx : asciiLower x ≠ ':' := (isC1_char_facts (hcl x (by simp))).2.2.1
    obtain ⟨c3, r3, heq3⟩ : ∃ c3 r3, l3 ++ '/' :: tail = c3 :: r3 := by
      cases l3 <;> exact ⟨_, _, rfl⟩
    simp [List.cons_append, heq3, expectCSS, hx]

theorem matchScheme_class1 (l tail : Str) (hcl : ∀ c ∈ l, isC1 c = true) :
    matchScheme (l ++ '/' :: tail) = none := by
  rcases l with _ | ⟨x, _ | ⟨y, _ | ⟨z, _ | ⟨w, _ | ⟨v, l6⟩⟩⟩⟩⟩
  · rcases tail with _ | ⟨t1, _ | ⟨t2, _ | ⟨t3, tr⟩⟩⟩ <;>
      simp +decide [matchScheme]
  · rcases tail with _ | ⟨t1, _ | ⟨t2, tr⟩⟩ <;> simp +decide [matchScheme]
  · rcases tail with _ | ⟨t1, tr⟩ <;> simp +decide [matchScheme]
  · simp +decide [matchScheme]
  · have h0 := expectCSS_class1 [] tail (by simp)
    simp only [List.nil_append] at h0
    simp +decide [matchScheme, h0]
  · have h1 := expectCSS_class1 l6 tail
      (fun c hc => hcl c (by simp [hc]))
    have h2 := expectCSS_class1 (v :: l6) tail
      (fun c hc => hcl c (by simpa using Or.inr (Or.inr (Or.inr (Or.inr hc)))))
    simp only [List.cons_append] at h1 h2 ⊢
    simp [matchScheme, h1, h2]

theorem stripPreGist_class1 (l tail : Str) (hcl : ∀ c ∈ l, isC1 c = true) :
    stripPre "gist:".data (l ++ '/' :: tail) = none := by
  rcases l with _ | ⟨x, _ | ⟨y, _ | ⟨z, _ | ⟨w, _ | ⟨v, l6⟩⟩⟩⟩⟩
  · rcases tail with _ | ⟨t1, _ | ⟨t2, _ | ⟨t3, tr⟩⟩⟩ <;>
      simp +decide [stripPre]
  · simp +decide [stripPre]
  · simp +decide [stripPre]
  · simp +decide [stripPre]
  · simp +decide [stripPre]
  · have hv : v ≠ ':' := (isC1_char_facts (hcl v (by simp))).1
    simp only [List.cons_append]
    simp [stripPre, hv]

theorem dropWhile_all_false {p : Char → Bool} {l : Str}
    (h : ∀ c ∈ l, p c = false) : l.dropWhile p = l := by
  cases l with
  | nil => rfl
  | cons a t => simp [List.dropWhile, h a (by simp)]

theorem dropTrailWhile_all_false {p : Char → Bool} {l : Str}
    (h : ∀ c ∈ l, p c = false) : dropTrailWhile p l = l := by
  unfold dropTrailWhile
  rw [dropWhile_all_false (fun c hc => h c (by simpa using hc)),
    List.reverse_reverse]

-- C5: shorthand owner/repo and owner/repo/sub/path inputs
/-- C5: every schemeless owner/repo/sub/path input parses to a folder-kind
descriptor with branch main and subPath the trailing path, owner/repo alone
parses to a repo-root descriptor, and an unrecognized input yields null
rather than an exception. -/
theorem c5_shorthand_parsing (owner repo rest : Str)
    (how : owner ≠ []) (howc : ∀ c ∈ owner, isC1 c = true)
    (hrp : repo ≠ []) (hrpc : ∀ c ∈ repo, isC2 c = true)
    (hrest : rest ≠ []) (htrim : dropTrailWhile isWs rest = rest) :
    (parseUrl (owner ++ ('/' :: (repo ++ ('/' :: rest)))).asString).map
        (fun d => (d.type, d.branch, d.subPath)) =
      some (.folder, some "main", some rest.asString) ∧
    (parseUrl (owner ++ ('/' :: repo)).asString).map (fun d => d.type) =
      some .repo ∧
    parseUrl "not a url, not shorthand" = none := by
  obtain ⟨c0, owner0, rfl⟩ : ∃ c0 owner0, owner = c0 :: owner0 := by
    cases owner with
    | nil => exact absurd rfl how
    | cons a t => exact ⟨a, t, rfl⟩
  have hc0 : isWs c0 = false := (isC1_char_facts (howc c0 (by simp))).2.2.2.2
  refine ⟨?_, ?_, by decide⟩
  · have hdataeq :
        ((c0 :: owner0 ++ ('/' :: (repo ++ ('/' :: rest)))).asString).data =
          c0 :: owner0 ++ ('/' :: (repo ++ ('/' :: rest))) := rfl
    have htrim1 : trimL ((c0 :: owner0) ++ ('/' :: (repo ++ ('/' :: rest)))) =
        (c0 :: owner0) ++ ('/' :: (repo ++ ('/' :: rest))) := by
      have e1 : (c0 :: owner0) ++ ('/' :: (repo ++ ('/' :: rest))) =
          c0 :: (owner0 ++ ('/' :: (repo ++ ('/' :: rest)))) := by simp
      have e2 : (c0 :: owner0) ++ ('/' :: (repo ++ ('/' :: rest))) =
          ((c0 :: owner0) ++ ('/' :: (repo ++ ['/']))) ++ rest := by simp
      unfold trimL
      rw [e1, List.dropWhile_cons_of_neg (by simp [hc0]), ← e1, e2,
        dropTrailWhile_app _ _ (by rw [htrim]; exact hrest), htrim]
    have hgist := stripPreGist_class1 (c0 :: owner0) (repo ++ ('/' :: rest)) howc
    have hscheme := matchScheme_class1 (c0 :: owner0) (repo ++ ('/' :: rest)) howc
    have htw1 : ((c0 :: owner0) ++ ('/' :: (repo ++ ('/' :: rest)))).takeWhile
        isC1 = c0 :: owner0 := takeWhile_app _ _ howc (by decide)
    have hdw1 : ((c0 :: owner0) ++ ('/' :: (repo ++ ('/' :: rest)))).dropWhile
        isC1 = '/' :: (repo ++ ('/' :: rest)) := dropWhile_app _ _ howc (by decide)
    have htw2 : (repo ++ ('/' :: rest)).takeWhile isC2 = repo :=
      takeWhile_app _ _ hrpc (by decide)
    have hdw2 : (repo ++ ('/' :: rest)).dropWhile isC2 = '/' :: rest :=
      dropWhile_app _ _ hrpc (by decide)
    simp only [parseUrl, hdataeq, htrim1, parseUrlL, hgist,
      matchGistUrl, matchRaw, matchBlob, matchTree, matchRepoRoot,
      matchSchemeHost, hscheme, Option.bind, matchShorthand, htw1, hdw1, htw2,
      hdw2, hrest, hrp]
    simp [hrest, hrp]
  · have hdataeq : ((c0 :: owner0 ++ ('/' :: repo)).asString).data =
        c0 :: owner0 ++ ('/' :: repo) := rfl
    have htrimrepo : dropTrailWhile isWs repo = repo :=
      dropTrailWhile_all_false (fun c hc => (isC2_char_facts (hrpc c hc)).2.2)
    have htrim1 : trimL ((c0 :: owner0) ++ ('/' :: repo)) =
        (c0 :: owner0) ++ ('/' :: repo) := by
      have e1 : (c0 :: owner0) ++ ('/' :: repo) =
          c0 :: (owner0 ++ ('/' :: repo)) := by simp
      have e2 : (c0 :: owner0) ++ ('/' :: repo) =
          ((c0 :: owner0) ++ ['/']) ++ repo := by simp
      unfold trimL
      rw [e1, List.dropWhile_cons_of_neg (by simp [hc0]), ← e1, e2,
        dropTrailWhile_app _ _ (by rw [htrimrepo]; exact hrp), htrimrepo]
    have hgist := stripPreGist_class1 (c0 :: owner0) repo howc
    have hscheme := matchScheme_class1 (c0 :: owner0) repo howc
    have htw1 : ((c0 :: owner0) ++ ('/' :: repo)).takeWhile isC1 =
        c0 :: owner0 := takeWhile_app _ _ howc (by decide)
    have hdw1 : ((c0 :: owner0) ++ ('/' :: repo)).dropWhile isC1 =
        '/' :: repo := dropWhile_app _ _ howc (by decide)
    have htw2 : repo.takeWhile isC2 = repo := takeWhile_all hrpc
    have hdw2 : repo.dropWhile isC2 = [] := dropWhile_all hrpc
    simp only [parseUrl, hdataeq, htrim1, parseUrlL, hgist,
      matchGistUrl, matchRaw, matchBlob, matchTree, matchRepoRoot,
      matchSchemeHost, hscheme, Option.bind, matchShorthand, htw1, hdw1, htw2,
      hdw2, hrp]
    simp [hrp]

/-- Closed instance of C5 at the end-to-end example of the specification. -/
theorem c5_shorthand_parsing_witness :
    (parseUrl "anthropics/skills/pdf-tools").map
        (fun d => (d.type, d.branch, d.subPath)) =
      some (.folder, some "main", some "pdf-tools") ∧
    (parseUrl "anthropics/skills").map (fun d => d.type) = some .repo ∧
    parseUrl "not a url, not shorthand" = none := by
  have h := c5_shorthand_parsing "anthropics".data "skills".data
    "pdf-tools".data (by decide) (by decide) (by decide) (by decide)
    (by decide) (by decide)
  exact ⟨h.1, h.2.1, h.2.2⟩

-- C8: deduplication keeps exactly the first occurrence per canonical URL
theorem dedupGo_filter_seen {seen : List String} {l : List MSkill} {u : String}
    (h : seen.contains u = true) :
    (dedupGo seen l).filter (fun s => s.url == u) = [] := by
  induction l generalizing seen with
  | nil => rfl
  | cons s rest ih =>
      unfold dedupGo
      by_cases hs : seen.contains s.url = true
      · simp only [hs, if_true]
        exact ih h
      · have hne : (s.url == u) = false := by
          rw [beq_eq_false_iff_ne]
          intro he
          rw [he] at hs
          exact hs h
        simp only [hs, if_false, Bool.false_eq_true]
        rw [List.filter_cons_of_neg (by simp [hne])]
        have hu : u ∈ seen := by
          simpa [List.contains, List.elem_iff] using h
        exact ih (by simp [hu])

theorem dedupGo_filter_first {seen : List String} {l : List MSkill} {u : String}
    (h : seen.contains u = false) :
    (dedupGo seen l).filter (fun s => s.url == u) =
      (match l.find? (fun s => s.url == u) with
       | none => []
       | some s => [s]) := by
  induction l generalizing seen with
  | nil => rfl
  | cons s rest ih =>
      by_cases hsu : s.url = u
      · subst hsu
        have hsn : seen.contains s.url = false := h
        unfold dedupGo
        simp only [hsn, Bool.false_eq_true, if_false]
        rw [List.filter_cons_of_pos (by simp)]
        rw [List.find?_cons_of_pos _ (by simp)]
        rw [dedupGo_filter_seen (by simp)]
      · have hne : (s.url == u) = false := by simp [hsu]
        unfold dedupGo
        by_cases hs : seen.contains s.url = true
        · simp only [hs, if_true]
          rw [ih h, List.find?_cons_of_neg _ (by simp [hne])]
        · simp only [hs, Bool.false_eq_true, if_false]
          rw [List.filter_cons_of_neg (by simp [hne]),
            List.find?_cons_of_neg _ (by simp [hne])]
          have hu : u ∉ seen := fun hm => by
            simp [List.contains, List.elem_eq_mem, hm] at h
          exact ih (by simp [hu, Ne.symm hsu])

/-- C8: when two providers both deliver an artifact with the same canonical
URL, fetchAll keeps exactly one entry for that URL: the first occurrence of
the results gathered in provider-registration order (Promise.allSettled
preserves input order, so the outcome does not depend on resolution order);
in general every URL occurs at most once in the returned list. -/
theorem c8_dedup_first_in_registration_order (registered : List Provider)
    (sourceIds : Option (List String)) (u : String) (s : MSkill)
    (h : (gatherSkills (selectProviders registered sourceIds)).find?
      (fun t => t.url == u) = some s) :
    (fetchAllModel registered sourceIds).skills.filter (fun t => t.url == u) =
      [s] ∧
    ∀ v, ((fetchAllModel registered sourceIds).skills.filter
      (fun t => t.url == v)).length ≤ 1 := by
  constructor
  · show (dedupByUrl (gatherSkills (selectProviders registered sourceIds))).filter
        (fun t => t.url == u) = [s]
    unfold dedupByUrl
    rw [dedupGo_filter_first (by simp), h]
  · intro v
    show ((dedupByUrl (gatherSkills (selectProviders registered sourceIds))).filter
        (fun t => t.url == v)).length ≤ 1
    unfold dedupByUrl
    rw [dedupGo_filter_first (by simp)]
    cases (gatherSkills (selectProviders registered sourceIds)).find?
        (fun t => t.url == v) <;> simp

/-- Closed instance of C8: two enabled providers both return an artifact with
canonical URL u1; the aggregate keeps the first provider's copy only. -/
theorem c8_dedup_first_in_registration_order_witness :
    (fetchAllModel
        [⟨"srcA", "Source A", true, .ok [⟨"u1", "fromA"⟩]⟩,
         ⟨"srcB", "Source B", true, .ok [⟨"u1", "fromB"⟩]⟩] none).skills.filter
      (fun t => t.url == "u1") = [⟨"u1", "fromA"⟩] :=
  (c8_dedup_first_in_registration_order
    [⟨"srcA", "Source A", true, .ok [⟨"u1", "fromA"⟩]⟩,
     ⟨"srcB", "Source B", true, .ok [⟨"u1", "fromB"⟩]⟩] none "u1" ⟨"u1", "fromA"⟩
    (by decide)).1

-- C9: partial-failure isolation and per-source reporting
theorem dedupGo_mem_url {l : List MSkill} {seen : List String} {u : String}
    (hu : u ∈ l.map (fun s => s.url)) (hs : u ∉ seen) :
    u ∈ (dedupGo seen l).map (fun s => s.url) := by
  induction l generalizing seen with
  | nil => simp at hu
  | cons s rest ih =>
      unfold dedupGo
      by_cases hc : seen.contains s.url = true
      · have hmem : s.url ∈ seen := by
          simpa [List.contains, List.elem_iff] using hc
        have hne : u ≠ s.url := fun he => hs (he ▸ hmem)
        simp only [hc, if_true]
        apply ih _ hs
        rcases by simpa using hu with he | hrest
        · exact absurd he hne
        · simpa using hrest
      · simp only [hc, Bool.false_eq_true, if_false, List.map_cons,
          List.mem_cons]
        by_cases heq : u = s.url
        · exact Or.inl heq
        · refine Or.inr (ih ?_ ?_)
          · rcases by simpa using hu with he | hrest
            · exact absurd he heq
            · simpa using hrest
          · simp [heq, hs]

theorem dedupGo_nodup_eq {l : List MSkill} {seen : List String}
    (hnd : (l.map (fun s => s.url)).Nodup)
    (hdisj : ∀ s ∈ l, s.url ∉ seen) :
    dedupGo seen l = l := by
  induction l generalizing seen with
  | nil => rfl
  | cons s rest ih =>
      have hns : s.url ∉ seen := hdisj s (by simp)
      have hc : seen.contains s.url = false := by
        simp [List.contains, List.elem_eq_mem, hns]
      have hd : (∀ x ∈ rest, ¬x.url = s.url) ∧
          (List.map (fun s => s.url) rest).Nodup := by simpa using hnd
      unfold dedupGo
      simp only [hc, Bool.false_eq_true, if_false]
      congr 1
      apply ih hd.2
      intro t ht
      simp [hd.1 t ht, hdisj t (by simp [ht])]

theorem addMissingInfos_cons (q : Provider) (reg : List Provider)
    (acc : List SourceInfo) :
    addMissingInfos (q :: reg) acc =
      addMissingInfos reg
        (if acc.any (fun s => s.id = q.id) then acc
         else acc ++ [⟨q.id, q.pname, 0, q.enabled⟩]) := by
  simp [addMissingInfos]

theorem addMissingInfos_mono {registered : List Provider}
    {acc : List SourceInfo} {x : SourceInfo} (hx : x ∈ acc) :
    x ∈ addMissingInfos registered acc := by
  induction registered generalizing acc with
  | nil => exact hx
  | cons q reg ih =>
      rw [addMissingInfos_cons]
      apply ih
      by_cases h : acc.any (fun s => s.id = q.id) = true
      · simpa [h] using hx
      · simp only [h, Bool.false_eq_true, if_false]
        exact List.mem_append_left _ hx

theorem addMissingInfos_covers {registered : List Provider}
    {acc : List SourceInfo} {p : Provider} (hp : p ∈ registered) :
    ∃ info ∈ addMissingInfos registered acc, info.id = p.id := by
  induction registered generalizing acc with
  | nil => simp at hp
  | cons q reg ih =>
      rw [addMissingInfos_cons]
      rcases List.mem_cons.mp hp with rfl | hp2
      · by_cases h : acc.any (fun s => s.id = p.id) = true
        · obtain ⟨x, hx, hxid⟩ := List.any_eq_true.mp h
          exact ⟨x, addMissingInfos_mono (by simp [h, hx]),
            by simpa using hxid⟩
        · refine ⟨⟨p.id, p.pname, 0, p.enabled⟩,
            addMissingInfos_mono ?_, rfl⟩
          simp only [h, Bool.false_eq_true, if_false]
          exact List.mem_append_right _ (by simp)
      · exact ih hp2

/-- C9: when one registered provider rejects, fetchAll still returns the
results of every other provider (its whole gathered list when canonical URLs
are globally distinct, and in general at least one entry per delivered URL),
records a non-empty errors list for the failure, and reports a per-source
count entry for every registered provider, including providers with zero
results or not fetched at all. -/
theorem c9_partial_failure_isolation (registered : List Provider)
    (sourceIds : Option (List String)) :
    (∀ p ∈ selectProviders registered sourceIds, ∀ skills,
      p.outcome = .ok skills → ∀ s ∈ skills,
      ∃ t ∈ (fetchAllModel registered sourceIds).skills, t.url = s.url) ∧
    (∀ p ∈ selectProviders registered sourceIds, ∀ e,
      p.outcome = .err e → (fetchAllModel registered sourceIds).errors ≠ []) ∧
    (∀ p ∈ registered,
      ∃ info ∈ (fetchAllModel registered sourceIds).sources,
        info.id = p.id) ∧
    (((gatherSkills (selectProviders registered sourceIds)).map
        (fun s => s.url)).Nodup →
      (fetchAllModel registered sourceIds).skills =
        gatherSkills (selectProviders registered sourceIds)) := by
  refine ⟨?_, ?_, ?_, ?_⟩
  · intro p hp skills hok s hs
    have hgather : s ∈ gatherSkills (selectProviders registered sourceIds) :=
      List.mem_flatMap.mpr ⟨p, hp, by simpa [hok] using hs⟩
    have hurl : s.url ∈ (gatherSkills
        (selectProviders registered sourceIds)).map (fun t => t.url) :=
      List.mem_map_of_mem _ hgather
    have := dedupGo_mem_url hurl (List.not_mem_nil _)
    obtain ⟨t, ht, htu⟩ := List.mem_map.mp this
    exact ⟨t, ht, htu⟩
  · intro p hp e herr
    apply List.ne_nil_of_mem
      (a := (⟨"unknown", "Unknown", e⟩ : SourceError))
    exact List.mem_filterMap.mpr ⟨p, hp, by rw [herr]⟩
  · intro p hp
    exact addMissingInfos_covers hp
  · intro hnd
    exact dedupGo_nodup_eq hnd (by simp)

/-- Closed instance of C9: of three registered providers the middle one
rejects; both other result sets are returned, an error is recorded, and all
three providers get a per-source entry. -/
theorem c9_partial_failure_isolation_witness :
    (∃ t ∈ (fetchAllModel
        [⟨"srcA", "Source A", true, .ok [⟨"u1", "a"⟩]⟩,
         ⟨"srcB", "Source B", true, .err "HTTP 500"⟩,
         ⟨"srcC", "Source C", true, .ok [⟨"u3", "c"⟩]⟩] none).skills,
      t.url = "u3") ∧
    (fetchAllModel
        [⟨"srcA", "Source A", true, .ok [⟨"u1", "a"⟩]⟩,
         ⟨"srcB", "Source B", true, .err "HTTP 500"⟩,
         ⟨"srcC", "Source C", true, .ok [⟨"u3", "c"⟩]⟩] none).errors ≠ [] ∧
    (∃ info ∈ (fetchAllModel
        [⟨"srcA", "Source A", true, .ok [⟨"u1", "a"⟩]⟩,
         ⟨"srcB", "Source B", true, .err "HTTP 500"⟩,
         ⟨"srcC", "Source C", true, .ok [⟨"u3", "c"⟩]⟩] none).sources,
      info.id = "srcB") := by
  have h := c9_partial_failure_isolation
    [⟨"srcA", "Source A", true, .ok [⟨"u1", "a"⟩]⟩,
     ⟨"srcB", "Source B", true, .err "HTTP 500"⟩,
     ⟨"srcC", "Source C", true, .ok [⟨"u3", "c"⟩]⟩] none
  refine ⟨?_, ?_, ?_⟩
  · exact h.1 ⟨"srcC", "Source C", true, .ok [⟨"u3", "c"⟩]⟩ (by decide)
      [⟨"u3", "c"⟩] rfl ⟨"u3", "c"⟩ (by decide)
  · exact h.2.1 ⟨"srcB", "Source B", true, .err "HTTP 500"⟩ (by decide)
      "HTTP 500" rfl
  · exact h.2.2.1 ⟨"srcB", "Source B", true, .err "HTTP 500"⟩ (by decide)

-- filesystem-model lemmas
theorem find?_filter_ne (fs : Fs) (p : FPath) :
    (fs.filter (fun e => !(e.1 = p : Bool))).find?
      (fun e => (e.1 = p : Bool)) = none := by
  induction fs with
  | nil => rfl
  | cons e t ih =>
      by_cases he : e.1 = p
      · rw [List.filter_cons_of_neg (by simp [he])]
        exact ih
      · rw [List.filter_cons_of_pos (by simp [he]),
          List.find?_cons_of_neg _ (by simp [he])]
        exact ih

theorem fsLookup_write (fs : Fs) (p : FPath) (a : Artifact) :
    fsLookup (fsWrite fs p a) p = some a := by
  simp [fsLookup, fsWrite, List.find?_cons_of_pos]

theorem find?_filter_other (fs : Fs) (p q : FPath) (h : q ≠ p) :
    (fs.filter (fun e => !(e.1 = p : Bool))).find?
      (fun e => (e.1 = q : Bool)) =
    fs.find? (fun e => (e.1 = q : Bool)) := by
  induction fs with
  | nil => rfl
  | cons e t ih =>
      by_cases he : e.1 = p
      · rw [List.filter_cons_of_neg (by simp [he]),
          List.find?_cons_of_neg _ (by simp [he, Ne.symm h])]
        exact ih
      · rw [List.filter_cons_of_pos (by simp [he])]
        by_cases heq : e.1 = q
        · rw [List.find?_cons_of_pos _ (by simp [heq]),
            List.find?_cons_of_pos _ (by simp [heq])]
        · rw [List.find?_cons_of_neg _ (by simp [heq]),
            List.find?_cons_of_neg _ (by simp [heq])]
          exact ih

theorem fsExists_remove (fs : Fs) (p : FPath) :
    fsExists (fsRemove fs p) p = false := by
  simp [fsExists, fsLookup, fsRemove, find?_filter_ne]

theorem fsLookup_write_other (fs : Fs) (p q : FPath) (a : Artifact)
    (h : q ≠ p) : fsLookup (fsWrite fs p a) q = fsLookup fs q := by
  simp only [fsLookup, fsWrite]
  rw [List.find?_cons_of_neg _ (by simp [Ne.symm h]), find?_filter_other _ _ _ h]

theorem fsRename_lookup_dst (fs : Fs) (src dst : FPath) (a : Artifact)
    (h : fsLookup fs src = some a) :
    fsLookup (fsRename fs src dst) dst = some a := by
  simp only [fsRename, h]
  exact fsLookup_write _ _ _

theorem fsRename_src_gone (fs : Fs) (src dst : FPath) (a : Artifact)
    (hne : src ≠ dst) (h : fsLookup fs src = some a) :
    fsExists (fsRename fs src dst) src = false := by
  simp only [fsRename, h]
  simp only [fsExists, fsLookup_write_other _ _ _ _ hne]
  simp [fsLookup, fsRemove, find?_filter_ne]

/-- The container directories of the four types are pairwise distinct, hence
destinations under different types differ. -/
theorem destPathOf_ne_of_type_ne (scope : Scope) (t1 t2 : SkillType)
    (leaf name : String) (h : t1 ≠ t2) :
    [scopeRoot scope, containerOf t1, leaf] ≠ destPathOf scope t2 name := by
  intro he
  apply h
  rw [destPathOf] at he
  injection he with h1 hrest
  injection hrest with hc hrest2
  cases t1 <;> cases t2 <;> first
    | rfl
    | exact absurd hc (by decide)

/-- Every path written by a retrieval strategy stays inside the container of
the proposed type, and the new filesystem is the old one plus that write. -/
theorem runStrategy_shape {p : ParsedUrl} {env : RetrievalEnv} {scope : Scope}
    {t : SkillType} {name : String} {fs : Fs} {ip : FPath} {fs1 : Fs}
    (h : runStrategy p env (destPathOf scope t name) fs = .ok (ip, fs1)) :
    ∃ leaf a, ip = [scopeRoot scope, containerOf t, leaf] ∧
      fs1 = fsWrite fs ip a := by
  unfold runStrategy at h
  cases htype : p.type <;>
    simp only [htype, installFileModel, installFolderModel,
      installGistModel] at h
  case file =>
    cases hf : env.fetchRes with
    | error e => simp [hf] at h
    | ok content =>
      simp only [hf, Except.ok.injEq, Prod.mk.injEq] at h
      obtain ⟨h1, h2⟩ := h
      exact ⟨(if extOfBase name.data = [] then name ++ ".md" else name),
        .file content,
        by simp [← h1, withMdIfNoExt, destPathOf, mapLast],
        by rw [← h2, ← h1]⟩
  case raw =>
    cases hf : env.fetchRes with
    | error e => simp [hf] at h
    | ok content =>
      simp only [hf, Except.ok.injEq, Prod.mk.injEq] at h
      obtain ⟨h1, h2⟩ := h
      exact ⟨(if extOfBase name.data = [] then name ++ ".md" else name),
        .file content,
        by simp [← h1, withMdIfNoExt, destPathOf, mapLast],
        by rw [← h2, ← h1]⟩
  case folder =>
    cases hf : env.cloneRes with
    | error e => simp [hf] at h
    | ok a =>
      simp only [hf, Except.ok.injEq, Prod.mk.injEq] at h
      obtain ⟨h1, h2⟩ := h
      exact ⟨name, a, by simp [← h1, destPathOf], by rw [← h2, ← h1]⟩
  case repo =>
    cases hf : env.cloneRes with
    | error e => simp [hf] at h
    | ok a =>
      simp only [hf, Except.ok.injEq, Prod.mk.injEq] at h
      obtain ⟨h1, h2⟩ := h
      exact ⟨name, a, by simp [← h1, destPathOf], by rw [← h2, ← h1]⟩
  case gist =>
    cases hf : env.gistRes with
    | error e => simp [hf] at h
    | ok ae =>
      obtain ⟨a, ext⟩ := ae
      cases a with
      | file content =>
        simp only [hf, Except.ok.injEq, Prod.mk.injEq] at h
        obtain ⟨h1, h2⟩ := h
        exact ⟨name ++ ext, .file content,
          by simp [← h1, destPathOf, mapLast], by rw [← h2, ← h1]⟩
      | dir entries =>
        simp only [hf, Except.ok.injEq, Prod.mk.injEq] at h
        obtain ⟨h1, h2⟩ := h
        exact ⟨name, .dir entries, by simp [← h1, destPathOf],
          by rw [← h2, ← h1]⟩

-- C2: relocation when the reclassified type differs from the hint
/-- C2: when retrieval succeeds and the content-detected type differs from the
descriptor hint, install either fails with an already-exists error naming the
new type and deletes the provisional artifact (when the destination under the
new container is taken), or moves the artifact to the new-type destination and
reports success with the corrected path (when it is free). -/
theorem c2_reclassified_type_relocation (p : ParsedUrl) (scope : Scope)
    (env : RetrievalEnv) (fs : Fs) (ip : FPath) (fs1 : Fs)
    (hfree : fsExists fs (destPathOf scope p.skillType p.skillName) = false)
    (hrun : runStrategy p env (destPathOf scope p.skillType p.skillName) fs =
      .ok (ip, fs1))
    (hdiff : detectTypeAt ip (fsLookup fs1 ip) ≠ p.skillType) :
    (fsExists fs1 (destPathOf scope (detectTypeAt ip (fsLookup fs1 ip))
        p.skillName) = true →
      (installModel p scope env fs).1.success = false ∧
      (installModel p scope env fs).1.error =
        some (p.skillName ++ " already exists in " ++ scopeName scope ++
          " as " ++ typeName (detectTypeAt ip (fsLookup fs1 ip))) ∧
      fsExists (installModel p scope env fs).2 ip = false) ∧
    (fsExists fs1 (destPathOf scope (detectTypeAt ip (fsLookup fs1 ip))
        p.skillName) = false →
      (installModel p scope env fs).1.success = true ∧
      (installModel p scope env fs).1.destPath =
        some (destPathOf scope (detectTypeAt ip (fsLookup fs1 ip)) p.skillName) ∧
      fsLookup (installModel p scope env fs).2
        (destPathOf scope (detectTypeAt ip (fsLookup fs1 ip)) p.skillName) =
        fsLookup fs1 ip ∧
      fsExists (installModel p scope env fs).2 ip = false) := by
  obtain ⟨leaf, a, hip, hfs1⟩ := runStrategy_shape hrun
  have hlook : fsLookup fs1 ip = some a := by rw [hfs1]; exact fsLookup_write _ _ _
  have hne : ip ≠ destPathOf scope (detectTypeAt ip (fsLookup fs1 ip))
      p.skillName := by
    have hx := destPathOf_ne_of_type_ne scope p.skillType
      (detectTypeAt ip (fsLookup fs1 ip)) leaf p.skillName (Ne.symm hdiff)
    rw [← hip] at hx
    exact hx
  constructor
  · intro hex
    have : installModel p scope env fs =
        ({ success := false,
           error := some (p.skillName ++ " already exists in " ++
             scopeName scope ++ " as " ++
             typeName (detectTypeAt ip (fsLookup fs1 ip))) },
         fsRemove fs1 ip) := by
      unfold installModel
      simp only [hfree, Bool.false_eq_true, if_false, hrun]
      simp [hdiff, hex]
    rw [this]
    exact ⟨rfl, rfl, fsExists_remove _ _⟩
  · intro hex
    have : installModel p scope env fs =
        ({ success := true,
           destPath := some (destPathOf scope
             (detectTypeAt ip (fsLookup fs1 ip)) p.skillName) },
         fsRename fs1 ip (destPathOf scope
           (detectTypeAt ip (fsLookup fs1 ip)) p.skillName)) := by
      unfold installModel
      simp only [hfree, Bool.false_eq_true, if_false, hrun]
      simp [hdiff, hex]
    rw [this]
    refine ⟨rfl, rfl, ?_, ?_⟩
    · rw [fsRename_lookup_dst _ _ _ _ hlook, hlook]
    · exact fsRename_src_gone _ _ _ _ hne hlook

/-- Closed instance of C2: a folder hinted as skill turns out to contain a
commands/ directory and is moved to the commands container. -/
theorem c2_reclassified_type_relocation_witness :
    (installModel { type := .folder, skillName := "x", skillType := .skill }
        .user { cloneRes := .ok (.dir [⟨"commands", true⟩]) } []).1.success =
      true ∧
    (installModel { type := .folder, skillName := "x", skillType := .skill }
        .user { cloneRes := .ok (.dir [⟨"commands", true⟩]) } []).1.destPath =
      some ["~/.claude", "commands", "x"] := by
  have h := c2_reclassified_type_relocation
    { type := .folder, skillName := "x", skillType := .skill } .user
    { cloneRes := .ok (.dir [⟨"commands", true⟩]) } []
    ["~/.claude", "skills", "x"]
    [(["~/.claude", "skills", "x"], .dir [⟨"commands", true⟩])]
    (by decide) rfl (by decide)
  have h2 := h.2 (by decide)
  exact ⟨h2.1, h2.2.1⟩

-- C3: the double-install check and the extension-append slip
/-- C3 (code bug demonstration): a single-file install writes
skills/notes.md because install appends .md to the extensionless destination,
while the already-exists check of a second install probes skills/notes; the
second install therefore succeeds and silently overwrites the first artifact
instead of failing with an already-exists error. -/
theorem c3_second_file_install_overwrites :
    (installModel { type := .raw, skillName := "notes", skillType := .skill }
        .user { fetchRes := .ok "v1" } []).1.success = true ∧
    fsLookup (installModel
        { type := .raw, skillName := "notes", skillType := .skill }
        .user { fetchRes := .ok "v1" } []).2
      ["~/.claude", "skills", "notes.md"] = some (.file "v1") ∧
    fsExists (installModel
        { type := .raw, skillName := "notes", skillType := .skill }
        .user { fetchRes := .ok "v1" } []).2
      ["~/.claude", "skills", "notes"] = false ∧
    (installModel { type := .raw, skillName := "notes", skillType := .skill }
        .user { fetchRes := .ok "v2" }
        (installModel { type := .raw, skillName := "notes", skillType := .skill }
          .user { fetchRes := .ok "v1" } []).2).1.success = true ∧
    fsLookup (installModel
        { type := .raw, skillName := "notes", skillType := .skill }
        .user { fetchRes := .ok "v2" }
        (installModel { type := .raw, skillName := "notes", skillType := .skill }
          .user { fetchRes := .ok "v1" } []).2).2
      ["~/.claude", "skills", "notes.md"] = some (.file "v2") := by
  refine ⟨by decide, by decide, by decide, by decide, by decide⟩

/-- The already-exists fast path itself works whenever the probed provisional
destination does exist (folder installs land exactly there). -/
theorem folder_double_install_already_exists :
    (installModel { type := .folder, skillName := "x", skillType := .skill }
        .user { cloneRes := .ok (.dir [⟨"SKILL.md", false⟩]) }
        (installModel { type := .folder, skillName := "x", skillType := .skill }
          .user { cloneRes := .ok (.dir [⟨"SKILL.md", false⟩]) } []).2).1 =
      { success := false, error := some "x already exists in user" } := by
  decide

-- C7: the HTML-marker guard of fetchContent
/-- C7 counterexample: a two-byte body (fewer than 4 bytes) passes the
fetchContent guard and is installed; the minimum-length check described by the
specification does not exist in the code. -/
theorem c7_short_body_counterexample :
    "ab".length < 4 ∧
    contentCheck "ab" = .ok "ab" ∧
    (installModel { type := .raw, skillName := "notes", skillType := .skill }
        .user { fetchRes := contentCheck "ab" } []).1.success = true ∧
    fsLookup (installModel
        { type := .raw, skillName := "notes", skillType := .skill }
        .user { fetchRes := contentCheck "ab" } []).2
      ["~/.claude", "skills", "notes.md"] = some (.file "ab") :=
  ⟨by decide, rfl, by decide, by decide⟩

/-- C7 amended: a body that after trimming starts with an HTML document
marker is rejected by fetchContent with an unexpected-content error, the
install fails, and no artifact is written (the filesystem is unchanged). -/
theorem c7_html_body_rejected (data : String) (p : ParsedUrl) (scope : Scope)
    (fs : Fs)
    (hkind : p.type = .file ∨ p.type = .raw)
    (hfree : fsExists fs (destPathOf scope p.skillType p.skillName) = false)
    (hhtml : "<!DOCTYPE".data.isPrefixOf (trimL data.data) = true ∨
      "<html".data.isPrefixOf (trimL data.data) = true) :
    contentCheck data = .error "Received HTML instead of raw content" ∧
    ∀ env : RetrievalEnv, env.fetchRes = contentCheck data →
      (installModel p scope env fs).1.success = false ∧
      (installModel p scope env fs).2 = fs := by
  have hcc : contentCheck data =
      .error "Received HTML instead of raw content" := by
    unfold contentCheck
    rcases hhtml with h | h <;> simp [h]
  refine ⟨hcc, ?_⟩
  intro env henv
  have hrun : runStrategy p env (destPathOf scope p.skillType p.skillName) fs =
      .error "Received HTML instead of raw content" := by
    unfold runStrategy
    rcases hkind with hk | hk <;>
      simp [hk, installFileModel, henv, hcc]
  unfold installModel
  simp [hfree, hrun]

/-- Closed instance of the amended C7 at a GitHub-style HTML error page. -/
theorem c7_html_body_rejected_witness :
    contentCheck "<html><body>404</body></html>" =
      .error "Received HTML instead of raw content" ∧
    (installModel { type := .raw, skillName := "notes", skillType := .skill }
        .user { fetchRes := contentCheck "<html><body>404</body></html>" }
        []).1.success = false ∧
    (installModel { type := .raw, skillName := "notes", skillType := .skill }
        .user { fetchRes := contentCheck "<html><body>404</body></html>" }
        []).2 = [] := by
  have h := c7_html_body_rejected "<html><body>404</body></html>"
    { type := .raw, skillName := "notes", skillType := .skill } .user []
    (Or.inr rfl) (by decide) (Or.inr (by decide))
  exact ⟨h.1, (h.2 _ rfl).1, (h.2 _ rfl).2⟩

-- C6: sanitizeName character-level behaviour
theorem wordC_facts {c : Char} (h : isWordC c = true) :
    isC1 c = true ∧ c ≠ '-' := by
  have hall : wordChars.all (fun c => isC1 c && decide (c ≠ '-')) = true := by
    decide
  have hc : c ∈ wordChars := by
    simpa [isWordC, List.contains, List.elem_iff] using h
  have := List.all_eq_true.mp hall c hc
  simp only [Bool.and_eq_true, decide_eq_true_eq] at this
  exact this

theorem class1_not_word_is_dash {c : Char} (h1 : isC1 c = true)
    (h2 : isWordC c = false) : c = '-' := by
  have hall : class1Chars.all (fun c => isWordC c || decide (c = '-')) = true := by
    decide
  have hc : c ∈ class1Chars := by
    simpa [isC1, List.contains, List.elem_iff] using h1
  have := List.all_eq_true.mp hall c hc
  simp only [Bool.or_eq_true, decide_eq_true_eq] at this
  rcases this with h | h
  · rw [h] at h2; cases h2
  · exact h

theorem replaceBad_chars {l : Str} {c : Char} (hc : c ∈ replaceBad l) :
    isC1 c = true := by
  obtain ⟨x, hx, hmap⟩ := List.mem_map.mp hc
  by_cases h : isC1 x = true
  · rw [← hmap]; simp [h]
  · rw [← hmap]; simp [Bool.eq_false_iff.mpr h]; decide

theorem collapseDashes_chars {l : Str} {b : Bool} {c : Char}
    (hc : c ∈ collapseDashes b l) : c ∈ l := by
  induction l generalizing b with
  | nil => simp [collapseDashes] at hc
  | cons d rest ih =>
      unfold collapseDashes at hc
      by_cases hd : d = '-'
      · subst hd
        simp only [if_true] at hc
        by_cases hb : b
        · subst hb
          simp only [if_true] at hc
          exact List.mem_cons_of_mem _ (ih hc)
        · simp only [Bool.not_eq_true] at hb
          subst hb
          simp only [Bool.false_eq_true, if_false] at hc
          rcases List.mem_cons.mp hc with rfl | hrest
          · simp
          · exact List.mem_cons_of_mem _ (ih hrest)
      · simp only [hd, if_false] at hc
        rcases List.mem_cons.mp hc with rfl | hrest
        · simp
        · exact List.mem_cons_of_mem _ (ih hrest)

theorem dropLeadDash_sub {l : Str} {c : Char} (hc : c ∈ dropLeadDash l) :
    c ∈ l := by
  cases l with
  | nil => simp [dropLeadDash] at hc
  | cons d rest =>
      unfold dropLeadDash at hc
      by_cases hd : d = '-'
      · simp only [hd, if_true] at hc
        exact List.mem_cons_of_mem _ hc
      · simpa [hd] using hc

theorem dropTrailDash_sub {l : Str} {c : Char} (hc : c ∈ dropTrailDash l) :
    c ∈ l := by
  unfold dropTrailDash at hc
  rw [List.mem_reverse] at hc
  have := dropLeadDash_sub hc
  rwa [List.mem_reverse] at this

theorem sanitize_chars_lowergood (l : Str) :
    ∀ c ∈ sanitizeNameL l, isLG c = true := by
  intro c hc
  unfold sanitizeNameL lowerStr at hc
  obtain ⟨x, hx, hmap⟩ := List.mem_map.mp hc
  have hx1 : isC1 x = true :=
    replaceBad_chars (collapseDashes_chars (dropLeadDash_sub
      (dropTrailDash_sub hx)))
  rw [← hmap]
  exact isC1_lower_isLG hx1

theorem collapseDashes_keeps {l : Str} {b : Bool} {c : Char} (hne : c ≠ '-')
    (hc : c ∈ l) : c ∈ collapseDashes b l := by
  induction l generalizing b with
  | nil => simp at hc
  | cons d rest ih =>
      unfold collapseDashes
      by_cases hd : d = '-'
      · subst hd
        have hrest : c ∈ rest := by
          rcases List.mem_cons.mp hc with rfl | h
          · exact absurd rfl hne
          · exact h
        simp only [if_true]
        by_cases hb : b
        · subst hb; simp only [if_true]; exact ih hrest
        · simp only [Bool.not_eq_true] at hb
          subst hb
          simp only [Bool.false_eq_true, if_false]
          exact List.mem_cons_of_mem _ (ih hrest)
      · simp only [hd, if_false]
        rcases List.mem_cons.mp hc with rfl | h
        · simp
        · exact List.mem_cons_of_mem _ (ih h)

theorem dropLeadDash_keeps {l : Str} {c : Char} (hne : c ≠ '-') (hc : c ∈ l) :
    c ∈ dropLeadDash l := by
  cases l with
  | nil => simp at hc
  | cons d rest =>
      unfold dropLeadDash
      by_cases hd : d = '-'
      · subst hd
        simp only [if_true]
        rcases List.mem_cons.mp hc with rfl | h
        · exact absurd rfl hne
        · exact h
      · simpa [hd] using hc

theorem dropTrailDash_keeps {l : Str} {c : Char} (hne : c ≠ '-') (hc : c ∈ l) :
    c ∈ dropTrailDash l := by
  unfold dropTrailDash
  rw [List.mem_reverse]
  exact dropLeadDash_keeps hne (List.mem_reverse.mpr hc)

theorem collapseDashes_all_dash {l : Str} (h : ∀ c ∈ l, c = '-') :
    collapseDashes true l = [] ∧
    collapseDashes false l = (if l = [] then [] else ['-']) := by
  induction l with
  | nil => simp [collapseDashes]
  | cons d rest ih =>
      have hd : d = '-' := h d (by simp)
      subst hd
      have ihr := ih (fun c hc => h c (by simp [hc]))
      constructor
      · unfold collapseDashes
        simp only [if_true]
        exact ihr.1
      · unfold collapseDashes
        simp [ihr.1]

/-- C6 (amended): the sanitized name consists only of characters of
[a-z0-9_-], and it is empty exactly when the input has no character of
[A-Za-z0-9_]; in particular sanitizeName can return the empty string for a
non-empty input, so descriptor names are not always non-empty. -/
theorem c6_sanitize_name_characterization (l : Str) :
    (∀ c ∈ sanitizeNameL l, isLG c = true) ∧
    (sanitizeNameL l = [] ↔ ∀ c ∈ l, isWordC c = false) := by
  refine ⟨sanitize_chars_lowergood l, ?_, ?_⟩
  · intro hempty c hc
    by_contra hw
    rw [Bool.not_eq_false] at hw
    obtain ⟨hc1, hdash⟩ := wordC_facts hw
    have h1 : c ∈ replaceBad l := by
      apply List.mem_map.mpr
      exact ⟨c, hc, by simp [hc1]⟩
    have h2 : c ∈ collapseDashes false (replaceBad l) :=
      collapseDashes_keeps hdash h1
    have h3 : c ∈ dropLeadDash (collapseDashes false (replaceBad l)) :=
      dropLeadDash_keeps hdash h2
    have h4 : c ∈ dropTrailDash (dropLeadDash
        (collapseDashes false (replaceBad l))) :=
      dropTrailDash_keeps hdash h3
    have h5 : asciiLower c ∈ sanitizeNameL l := by
      unfold sanitizeNameL lowerStr
      exact List.mem_map_of_mem _ h4
    rw [hempty] at h5
    simp at h5
  · intro hword
    have hdash : ∀ c ∈ replaceBad l, c = '-' := by
      intro c hc
      obtain ⟨x, hx, hmap⟩ := List.mem_map.mp hc
      by_cases h : isC1 x = true
      · rw [← hmap]
        simp only [h, if_true]
        exact class1_not_word_is_dash h (hword x hx)
      · rw [← hmap]
        simp [Bool.eq_false_iff.mpr h]
    have hcol := (collapseDashes_all_dash hdash).2
    unfold sanitizeNameL
    rw [hcol]
    by_cases hl : replaceBad l = []
    · simp [hl, dropLeadDash, dropTrailDash, lowerStr]
    · simp only [hl, if_false]
      simp [dropLeadDash, dropTrailDash, lowerStr]

/-- Closed instances of the amended C6. -/
theorem c6_sanitize_name_characterization_witness :
    isLG 'm' = true ∧ sanitizeNameL "...".data = [] :=
  ⟨(c6_sanitize_name_characterization "My Skill!".data).1 'm' (by decide),
   (c6_sanitize_name_characterization "...".data).2.mpr (by decide)⟩

/-- C6 counterexample: sanitizeName maps the non-empty input "." to the empty
string, and parseUrl of a root-level SKILL.md blob URL produces a descriptor
whose proposedName is empty (so it does not match [a-z0-9_-]+). -/
theorem c6_empty_name_counterexample :
    "." ≠ "" ∧ sanitizeNameL ".".data = [] ∧
    (parseUrl "https://github.com/u/r/blob/main/SKILL.md").map
      (fun d => d.skillName) = some "" := by
  refine ⟨by decide, by decide, by decide⟩

-- C4: GitHub blob URLs
theorem matchScheme_https (r : Str) :
    matchScheme ("https://".data ++ r) = some r := by
  have h : ("https://".data : Str) = ['h', 't', 't', 'p', 's', ':', '/', '/'] := by
    decide
  rw [h]
  simp +decide [matchScheme, expectCSS]

theorem stripCI_github (r : Str) :
    stripCI "github.com/".data ("github.com/".data ++ r) = some r := by
  have h : ("github.com/".data : Str) =
      ['g', 'i', 't', 'h', 'u', 'b', '.', 'c', 'o', 'm', '/'] := by decide
  rw [h]
  simp +decide [stripCI]

theorem stripCI_gisthost_github (r : Str) :
    stripCI "gist.github.com/".data ("github.com/".data ++ r) = none := by
  have h : ("github.com/".data : Str) =
      ['g', 'i', 't', 'h', 'u', 'b', '.', 'c', 'o', 'm', '/'] := by decide
  rw [h]
  simp +decide [stripCI]

theorem stripCI_rawhost_github (r : Str) :
    stripCI "raw.githubusercontent.com/".data ("github.com/".data ++ r) =
      none := by
  have h : ("github.com/".data : Str) =
      ['g', 'i', 't', 'h', 'u', 'b', '.', 'c', 'o', 'm', '/'] := by decide
  rw [h]
  simp +decide [stripCI]

theorem stripPre_gist_https (r : Str) :
    stripPre "gist:".data ("https://".data ++ r) = none := by
  have h : ("https://".data : Str) = ['h', 't', 't', 'p', 's', ':', '/', '/'] := by
    decide
  rw [h]
  simp +decide [stripPre]

theorem seg_app (s : Str) (r : Str) (hs : s ≠ [])
    (hsl : ∀ c ∈ s, c ≠ '/') : seg (s ++ '/' :: r) = some (s, r) := by
  unfold seg
  rw [takeWhile_app _ _ (fun x hx => by simp [hsl x hx]) (by decide),
    dropWhile_app _ _ (fun x hx => by simp [hsl x hx]) (by decide)]
  simp [hs]

theorem dropTrailWhile_all_true {p : Char → Bool} {l : Str}
    (h : ∀ c ∈ l, p c = true) : dropTrailWhile p l = [] := by
  unfold dropTrailWhile
  rw [dropWhile_all (fun c hc => h c (by simpa using hc))]
  rfl

theorem dirnameL_app (dir fname : Str) (hd : dir ≠ [])
    (hdt : dropTrailWhile (fun c => c = '/') dir = dir)
    (hf : fname ≠ []) (hfsl : ∀ c ∈ fname, c ≠ '/') :
    dirnameL (dir ++ '/' :: fname) = dir := by
  obtain ⟨f0, fr, rfl⟩ : ∃ f0 fr, fname = f0 :: fr := by
    cases fname with
    | nil => exact absurd rfl hf
    | cons a t => exact ⟨a, t, rfl⟩
  have hs1 : dropTrailWhile (fun c => c = '/') (dir ++ '/' :: f0 :: fr) =
      dir ++ '/' :: f0 :: fr := by
    have hfd : dropTrailWhile (fun c => c = '/') (f0 :: fr) = f0 :: fr :=
      dropTrailWhile_all_false (fun c hc => by simp [hfsl c hc])
    have := dropTrailWhile_app (dir ++ ['/']) (f0 :: fr) (by rw [hfd]; simp)
    simpa [hfd] using this
  have hs2 : dropTrailWhile (fun c => c ≠ '/') (dir ++ '/' :: f0 :: fr) =
      dir ++ ['/'] := by
    unfold dropTrailWhile
    have hrev : (dir ++ '/' :: f0 :: fr).reverse =
        (f0 :: fr).reverse ++ '/' :: dir.reverse := by simp
    rw [hrev, dropWhile_app _ _
      (fun x hx => by simp [hfsl x (List.mem_reverse.mp hx)]) (by decide)]
    simp
  have hs3 : dropTrailWhile (fun c => c = '/') (dir ++ ['/']) = dir := by
    unfold dropTrailWhile at hdt ⊢
    have hrev : (dir ++ ['/']).reverse = '/' :: dir.reverse := by simp
    rw [hrev]
    rw [List.dropWhile_cons_of_pos (by simp)]
    exact hdt
  unfold dirnameL
  rw [if_neg (by simp)]
  simp only [hs1, hs2, hs3]
  rw [if_neg hd]

theorem dropWhile_ws_https (x : Str) :
    ("https://github.com/".data ++ x).dropWhile isWs =
      "https://github.com/".data ++ x := by
  rw [show ("https://github.com/".data : Str) =
    'h' :: "ttps://github.com/".data from by decide]
  simp only [List.cons_append]
  rw [List.dropWhile_cons_of_neg (by decide)]

/-- C4 (amended): for every GitHub blob URL whose file path ends with the
characters SKILL.md or agent.md (not only files literally named so), parseUrl
returns a folder-kind descriptor whose subPath is the parent directory of the
file, with repository URL and branch taken from the blob URL; for every blob
URL whose path ends with neither marker it returns a single-file descriptor
with a derived raw-content URL; and on paths of the form dir/fname the parent
directory is dir itself. -/
theorem c4_blob_url_parsing (owner repo branch filePath : Str)
    (how : owner ≠ []) (howsl : ∀ c ∈ owner, c ≠ '/')
    (hrp : repo ≠ []) (hrpsl : ∀ c ∈ repo, c ≠ '/')
    (hbr : branch ≠ []) (hbrsl : ∀ c ∈ branch, c ≠ '/')
    (hfp : filePath ≠ [])
    (htrimfp : dropTrailWhile isWs filePath = filePath) :
    (("SKILL.md".data.isSuffixOf filePath = true ∨
        "agent.md".data.isSuffixOf filePath = true) →
      (parseUrl ("https://github.com/".data ++ (owner ++ ('/' :: (repo ++
          ('/' :: 'b' :: 'l' :: 'o' :: 'b' :: '/' :: (branch ++
          ('/' :: filePath))))))).asString).map
          (fun d => (d.type, d.repoUrl, d.branch, d.subPath)) =
        some (.folder, some (ghRepoUrl owner repo), some branch.asString,
          some (dirnameL filePath).asString)) ∧
    (("SKILL.md".data.isSuffixOf filePath = false ∧
        "agent.md".data.isSuffixOf filePath = false) →
      (parseUrl ("https://github.com/".data ++ (owner ++ ('/' :: (repo ++
          ('/' :: 'b' :: 'l' :: 'o' :: 'b' :: '/' :: (branch ++
          ('/' :: filePath))))))).asString).map
          (fun d => (d.type, d.rawUrl)) =
        some (.file, some (rawUrlOf owner repo branch filePath))) ∧
    (∀ dir fname, filePath = dir ++ '/' :: fname → fname ≠ [] →
      (∀ c ∈ fname, c ≠ '/') → dir ≠ [] →
      dropTrailWhile (fun c => c = '/') dir = dir →
      dirnameL filePath = dir) := by
  have hsplit : ("https://github.com/".data : Str) =
      "https://".data ++ "github.com/".data := by decide
  have hdataeq : ∀ l : Str, (l.asString).data = l := fun l => rfl
  have htrim1 : trimL ("https://github.com/".data ++ (owner ++ ('/' :: (repo ++
      ('/' :: 'b' :: 'l' :: 'o' :: 'b' :: '/' :: (branch ++
      ('/' :: filePath))))))) =
      "https://github.com/".data ++ (owner ++ ('/' :: (repo ++
      ('/' :: 'b' :: 'l' :: 'o' :: 'b' :: '/' :: (branch ++
      ('/' :: filePath)))))) := by
    have e2 : "https://github.com/".data ++ (owner ++ ('/' :: (repo ++
        ('/' :: 'b' :: 'l' :: 'o' :: 'b' :: '/' :: (branch ++
        ('/' :: filePath)))))) =
        ("https://github.com/".data ++ (owner ++ ('/' :: (repo ++
        ('/' :: 'b' :: 'l' :: 'o' :: 'b' :: '/' :: (branch ++
        ['/'])))))) ++ filePath := by simp
    unfold trimL
    rw [dropWhile_ws_https, e2,
      dropTrailWhile_app _ _ (by rw [htrimfp]; exact hfp), htrimfp]
  have hscheme : matchScheme ("https://github.com/".data ++ (owner ++
      ('/' :: (repo ++ ('/' :: 'b' :: 'l' :: 'o' :: 'b' :: '/' :: (branch ++
      ('/' :: filePath))))))) =
      some ("github.com/".data ++ (owner ++ ('/' :: (repo ++
      ('/' :: 'b' :: 'l' :: 'o' :: 'b' :: '/' :: (branch ++
      ('/' :: filePath))))))) := by
    rw [hsplit, List.append_assoc]
    exact matchScheme_https _
  have hgistpre : stripPre "gist:".data ("https://github.com/".data ++
      (owner ++ ('/' :: (repo ++ ('/' :: 'b' :: 'l' :: 'o' :: 'b' :: '/' ::
      (branch ++ ('/' :: filePath))))))) = none := by
    rw [hsplit, List.append_assoc]
    exact stripPre_gist_https _
  have hgisturl : matchGistUrl ("https://github.com/".data ++ (owner ++
      ('/' :: (repo ++ ('/' :: 'b' :: 'l' :: 'o' :: 'b' :: '/' :: (branch ++
      ('/' :: filePath))))))) = none := by
    unfold matchGistUrl matchSchemeHost
    rw [hscheme, Option.some_bind, stripCI_gisthost_github]
  have hraw : matchRaw ("https://github.com/".data ++ (owner ++
      ('/' :: (repo ++ ('/' :: 'b' :: 'l' :: 'o' :: 'b' :: '/' :: (branch ++
      ('/' :: filePath))))))) = none := by
    unfold matchRaw matchSchemeHost
    rw [hscheme, Option.some_bind, stripCI_rawhost_github]
  have hblobstrip : stripCI "blob/".data
      ('b' :: 'l' :: 'o' :: 'b' :: '/' :: (branch ++ ('/' :: filePath))) =
      some (branch ++ ('/' :: filePath)) := by
    simp +decide [stripCI]
  have hblob : matchBlob ("https://github.com/".data ++ (owner ++
      ('/' :: (repo ++ ('/' :: 'b' :: 'l' :: 'o' :: 'b' :: '/' :: (branch ++
      ('/' :: filePath))))))) = some (owner, repo, branch, filePath) := by
    unfold matchBlob matchSchemeHost
    rw [hscheme, Option.some_bind, stripCI_github]
    simp only [seg_app owner _ how howsl, seg_app repo _ hrp hrpsl,
      hblobstrip, seg_app branch _ hbr hbrsl]
    simp [hfp]
  refine ⟨?_, ?_, ?_⟩
  · intro hend
    simp only [parseUrl, hdataeq, htrim1, parseUrlL, hgistpre, hgisturl, hraw,
      hblob]
    rcases hend with h | h <;> simp [h]
  · intro hend
    simp only [parseUrl, hdataeq, htrim1, parseUrlL, hgistpre, hgisturl, hraw,
      hblob]
    simp [hend.1, hend.2]
  · intro dir fname heq hf hfsl hd hdt
    rw [heq]
    exact dirnameL_app dir fname hd hdt hf hfsl

/-- Closed instance of the amended C4: a SKILL.md blob URL is reinterpreted
as its parent folder, and an ordinary markdown blob URL becomes a single-file
descriptor with a derived raw URL. -/
theorem c4_blob_url_parsing_witness :
    (parseUrl "https://github.com/u/r/blob/main/tools/SKILL.md").map
      (fun d => (d.type, d.repoUrl, d.branch, d.subPath)) =
      some (.folder, some "https://github.com/u/r.git", some "main",
        some "tools") ∧
    (parseUrl "https://github.com/u/r/blob/main/docs/note.md").map
      (fun d => (d.type, d.rawUrl)) =
      some (.file,
        some "https://raw.githubusercontent.com/u/r/main/docs/note.md") := by
  constructor
  · exact (c4_blob_url_parsing "u".data "r".data "main".data
      "tools/SKILL.md".data (by decide) (by decide) (by decide) (by decide)
      (by decide) (by decide) (by decide) (by decide)).1 (Or.inl (by decide))
  · exact (c4_blob_url_parsing "u".data "r".data "main".data
      "docs/note.md".data (by decide) (by decide) (by decide) (by decide)
      (by decide) (by decide) (by decide) (by decide)).2.1
      ⟨by decide, by decide⟩

/-- C4 counterexample: the blob URL of a file named MYSKILL.md, which is not
literally named SKILL.md or agent.md, still parses as a folder descriptor and
not as a single-file descriptor, because the source tests endsWith rather
than the exact file name. -/
theorem c4_endswith_counterexample :
    basenameL "main/MYSKILL.md".data ≠ "SKILL.md".data ∧
    basenameL "main/MYSKILL.md".data ≠ "agent.md".data ∧
    (parseUrl "https://github.com/u/r/blob/main/MYSKILL.md").map
      (fun d => d.type) = some .folder ∧
    (parseUrl "https://github.com/u/r/blob/main/MYSKILL.md").map
      (fun d => d.type) ≠ some .file := by
  refine ⟨by decide, by decide, by decide, by decide⟩

-- C10: isValidInput as a pre-check of parseUrl
theorem stripPre_gives_isPrefixOf {pat l r : Str} (h : stripPre pat l = some r) :
    pat.isPrefixOf l = true := by
  induction pat generalizing l with
  | nil => simp [List.isPrefixOf]
  | cons p ps ih =>
      cases l with
      | nil => simp [stripPre] at h
      | cons c cs =>
          unfold stripPre at h
          by_cases hc : c = p
          · subst hc
            simp only [if_pos rfl] at h
            simp [List.isPrefixOf, ih h]
          · simp [hc] at h

theorem schemeless_matchers_none {l : Str} (h : matchScheme l = none) :
    matchGistUrl l = none ∧ matchRaw l = none ∧ matchBlob l = none ∧
    matchTree l = none ∧ matchRepoRoot l = none := by
  refine ⟨?_, ?_, ?_, ?_, ?_⟩ <;>
    simp [matchGistUrl, matchRaw, matchBlob, matchTree, matchRepoRoot,
      matchSchemeHost, h]

theorem shorthandTest_of_match {l : Str} {x : Str × Str × Option Str}
    (h : matchShorthand l = some x) : shorthandTest l = true := by
  unfold matchShorthand at h
  unfold shorthandTest
  by_cases h1 : l.takeWhile isC1 = []
  · simp [h1] at h
  · simp only [h1, if_false] at h ⊢
    cases h2 : l.dropWhile isC1 with
    | nil => rw [h2] at h; exact absurd h (by simp)
    | cons c r2 =>
        rw [h2] at h
        by_cases hc : c = '/'
        · subst hc
          by_cases h3 : r2.takeWhile isC2 = []
          · simp [h3] at h
          · simp [h3, List.isEmpty_iff]
        · exfalso
          revert h
          split
          · next heq =>
              intro h
              injection heq with heqc
              exact hc heqc
          · intro h
            simp at h

/-- C10 counterexample: an uppercase-scheme URL parses successfully (the
parser regexes carry the i flag) but fails isValidInput, whose scheme check
is a case-sensitive startsWith. -/
theorem c10_uppercase_scheme_counterexample :
    (parseUrl "HTTP://github.com/a/b").isSome = true ∧
    isValidInput "HTTP://github.com/a/b" = false := by
  refine ⟨by decide, by decide⟩

/-- C10 (amended): for every input accepted by parseUrl, isValidInput also
accepts it, provided that when the trimmed input carries an HTTP scheme the
scheme is written exactly as http:// or https:// (the counterexample shows
the claim fails for uppercase schemes). -/
theorem c10_valid_input_covers_parseable (input : String)
    (hp : parseUrl input ≠ none)
    (hcase : matchScheme (trimL input.data) = none ∨
      "http://".data.isPrefixOf (trimL input.data) = true ∨
      "https://".data.isPrefixOf (trimL input.data) = true) :
    isValidInput input = true := by
  unfold parseUrl parseUrlL at hp
  have key : "gist:".data.isPrefixOf (trimL input.data) = true ∨
      "http://".data.isPrefixOf (trimL input.data) = true ∨
      "https://".data.isPrefixOf (trimL input.data) = true ∨
      shorthandTest (trimL input.data) = true := by
    rcases hgist : stripPre "gist:".data (trimL input.data) with _ | gid
    · simp only [hgist] at hp
      rcases hms : matchScheme (trimL input.data) with _ | r0
      · obtain ⟨hn1, hn2, hn3, hn4, hn5⟩ := schemeless_matchers_none hms
        simp only [hn1, hn2, hn3, hn4, hn5] at hp
        rcases hsh : matchShorthand (trimL input.data) with _ | x
        · simp [hsh] at hp
        · exact Or.inr (Or.inr (Or.inr (shorthandTest_of_match hsh)))
      · rcases hcase with h | h | h
        · rw [hms] at h; cases h
        · exact Or.inr (Or.inl h)
        · exact Or.inr (Or.inr (Or.inl h))
    · exact Or.inl (stripPre_gives_isPrefixOf hgist)
  unfold isValidInput
  rcases key with k | k | k | k <;> simp [k]

/-- Closed instance of the amended C10 on a shorthand input and a lowercase
URL. -/
theorem c10_valid_input_covers_parseable_witness :
    isValidInput "anthropics/skills" = true ∧
    isValidInput "https://github.com/u/r" = true :=
  ⟨c10_valid_input_covers_parseable "anthropics/skills" (by decide)
      (Or.inl (by decide)),
   c10_valid_input_covers_parseable "https://github.com/u/r" (by decide)
      (Or.inr (Or.inr (by decide)))⟩
